import Mathlib

/-!
A shallow embedding of the SwornDisk disk layer (`src/core/src/layers/5-disk`)
of the asterinas `fast26-artifact-evaluation` repository, together with
theorems settling the frozen claims about it.

The embedding follows the Rust source.  External collaborators that the spec
declares out of scope (the transactional LSM-tree, the log store, the AEAD
primitive, the block device) and repository modules that are not shipped under
`src/` (`util::BitMap`, `data_buf.rs`) are modelled from the spec, each marked
by a doc comment.
-/

/-- Error kinds used by the core (spec section 7). -/
inductive Errno where
  | NotFound
  | OutOfDisk
  | IoFailed
  | InvalidArgs
  | TxAborted
  | PermissionDenied
  | OutOfMemory
deriving DecidableEq, Repr

/-- A data block: its byte contents. -/
abbrev Block := List Nat

instance {e a : Type} [DecidableEq e] [DecidableEq a] :
    DecidableEq (Except e a) := fun x y =>
  match x, y with
  | .error u, .error v =>
    if h : u = v then .isTrue (congrArg Except.error h)
    else .isFalse (fun hc => h (by injection hc))
  | .error _, .ok _ => .isFalse (fun hc => Except.noConfusion hc)
  | .ok _, .error _ => .isFalse (fun hc => Except.noConfusion hc)
  | .ok u, .ok v =>
    if h : u = v then .isTrue (congrArg Except.ok h)
    else .isFalse (fun hc => h (by injection hc))

/-! ## BitMap

Modelled from the spec: `crate::util::BitMap` is repository code that is not
under `src/`.  The spec (section 3, "Validity bitmap") and the usage in
`block_alloc.rs` fix its behaviour: a sequence of bits with `repeat`, `set`,
`test_bit`, `count_ones`, `first_one(from)` (first set bit at index ≥ from)
and `first_ones(from, count)` (the first `count` indices of set bits at
index ≥ from, `None` when fewer exist there; the result need not be
contiguous, callers regroup it into consecutive runs). -/
abbrev BitMap := List Bool

namespace BitMap

/-- Modelled from the spec: `BitMap::repeat(bit, n)`. -/
def repeatBit (b : Bool) (n : Nat) : BitMap := List.replicate n b

/-- Modelled from the spec: `BitMap::set(i, b)` (out-of-range indices are
never passed by the source; the model ignores them). -/
def setBit : BitMap → Nat → Bool → BitMap
  | [], _, _ => []
  | _ :: rest, 0, b => b :: rest
  | x :: rest, n + 1, b => x :: setBit rest n b

/-- Modelled from the spec: `BitMap::test_bit(i)` / indexing. -/
def testBit : BitMap → Nat → Bool
  | [], _ => false
  | x :: _, 0 => x
  | _ :: rest, n + 1 => testBit rest n

/-- Modelled from the spec: `BitMap::count_ones()`. -/
def countOnes : BitMap → Nat
  | [] => 0
  | b :: rest => (if b then 1 else 0) + countOnes rest

/-- Indices (absolute, starting at `base`) of the set bits of a bit list. -/
def onesAux : List Bool → Nat → List Nat
  | [], _ => []
  | b :: rest, i => if b then i :: onesAux rest (i + 1) else onesAux rest (i + 1)

/-- Modelled from the spec: all indices of set bits at position ≥ `start`. -/
def onesFrom (m : BitMap) (start : Nat) : List Nat := onesAux (m.drop start) start

/-- Modelled from the spec: `BitMap::first_one(from)`. -/
def firstOne (m : BitMap) (start : Nat) : Option Nat := (onesFrom m start).head?

/-- Modelled from the spec: `BitMap::first_ones(from, count)`. -/
def firstOnes (m : BitMap) (start count : Nat) : Option (List Nat) :=
  let os := onesFrom m start
  if count ≤ os.length then some (os.take count) else none

end BitMap

/-- Incremental diff of block validity (`block_alloc.rs`, `enum AllocDiff`). -/
inductive AllocDiff where
  | Alloc
  | Dealloc
  | Invalid
deriving DecidableEq, Repr

/-- `impl From<u8> for AllocDiff` (`block_alloc.rs`): 3 is `Alloc`, 7 is
`Dealloc`, every other byte is `Invalid`. -/
def AllocDiff.fromByte (value : Nat) : AllocDiff :=
  match value with
  | 3 => .Alloc
  | 7 => .Dealloc
  | _ => .Invalid

/-- Tag byte of a diff, as written by `update_diff_log` (`*block_diff as u8`). -/
def AllocDiff.toByte : AllocDiff → Nat
  | .Alloc => 3
  | .Dealloc => 7
  | .Invalid => 8

/-- Each segment contains 1024 blocks (`segment.rs`). -/
def SEGMENT_SIZE : Nat := 1024

/-- A segment's bookkeeping counters (`segment.rs`, `struct Segment`).  The
shared validity bitmap that the Rust struct holds behind an `Arc` lives in
the enclosing `AllocTable`; operations that need it take it explicitly. -/
structure Segment where
  segment_id : Nat
  valid_block : Nat
  free_space : Nat
  nblocks : Nat
deriving DecidableEq, Repr

namespace Segment

/-- `Segment::new` -/
def new (segment_id nblocks : Nat) : Segment :=
  { segment_id := segment_id, valid_block := nblocks, free_space := nblocks,
    nblocks := nblocks }

/-- `Segment::num_invalid_blocks` -/
def num_invalid_blocks (s : Segment) : Nat := s.nblocks - s.valid_block

/-- `Segment::mark_alloc` -/
def mark_alloc (s : Segment) : Segment := { s with free_space := s.free_space - 1 }

/-- `Segment::mark_deallocated` -/
def mark_deallocated (s : Segment) : Segment :=
  { s with free_space := s.free_space + 1, valid_block := s.valid_block - 1 }

/-- `Segment::clear_segment` -/
def clearSeg (s : Segment) : Segment :=
  { s with valid_block := s.nblocks, free_space := s.nblocks }

/-- `Segment::find_all_allocated_blocks`: HBAs in the segment's range whose
bitmap bit is cleared. -/
def find_all_allocated_blocks (s : Segment) (bitmap : BitMap) : List Nat :=
  ((List.range s.nblocks).map (fun i => s.segment_id * SEGMENT_SIZE + i)).filter
    (fun idx => ¬ bitmap.testBit idx)

/-- `Segment::find_all_free_blocks`: HBAs in the segment's range whose bitmap
bit is set. -/
def find_all_free_blocks (s : Segment) (bitmap : BitMap) : List Nat :=
  ((List.range s.nblocks).map (fun i => s.segment_id * SEGMENT_SIZE + i)).filter
    (fun idx => bitmap.testBit idx)

end Segment

/-- Update the segment record at index `i` of a segment table. -/
def updateSegAt (st : List Segment) (i : Nat) (f : Segment → Segment) : List Segment :=
  st.set i (f (st.getD i (Segment.new 0 0)))

/-- Block validity table (`block_alloc.rs`, `struct AllocTable`).  The
`Condvar`/`CvarMutex` machinery is concurrency plumbing; the sequential
embedding keeps the protected `num_free` counter itself. -/
structure AllocTable where
  bitmap : BitMap
  segment_table : Option (List Segment)
  next_avail : Nat
  nblocks : Nat
  is_dirty : Bool
  num_free : Nat
deriving DecidableEq, Repr

namespace AllocTable

/-- `AllocTable::new`: all blocks free; a segment table only when GC is on. -/
def new (nblocks : Nat) (enable_gc : Bool) : AllocTable :=
  let bitmap := BitMap.repeatBit true nblocks
  let segment_table :=
    if enable_gc then
      some ((List.range (nblocks / SEGMENT_SIZE)).map
        (fun id => Segment.new id SEGMENT_SIZE))
    else none
  { bitmap := bitmap, segment_table := segment_table, next_avail := 0,
    nblocks := nblocks, is_dirty := false, num_free := nblocks }

/-- `AllocTable::alloc`: scan from `next_avail`, then from 0; clear the bit;
under GC mark the segment allocated; advance the cursor.  (It does not touch
`num_free`.) -/
def alloc (t : AllocTable) : Option (Nat × AllocTable) :=
  match (match t.bitmap.firstOne t.next_avail with
         | some hba => some hba
         | none => t.bitmap.firstOne 0) with
  | none => none
  | some hba =>
    let bitmap' := t.bitmap.setBit hba false
    let seg' := t.segment_table.map
      (fun st => updateSegAt st (hba / SEGMENT_SIZE) Segment.mark_alloc)
    some (hba, { t with bitmap := bitmap', segment_table := seg',
                        next_avail := hba + 1 })

/-- `AllocTable::do_alloc_batch` -/
def doAllocBatch (t : AllocTable) (count : Nat) : Option (List Nat × AllocTable) :=
  match (if t.nblocks < t.next_avail + count
         then t.bitmap.firstOne 0
         else some t.next_avail) with
  | none => none
  | some na =>
    match (match t.bitmap.firstOnes na count with
           | some hbas => some hbas
           | none =>
             match t.bitmap.firstOne 0 with
             | none => none
             | some na2 => t.bitmap.firstOnes na2 count) with
    | none => none
    | some hbas =>
      let bitmap' := hbas.foldl (fun bm h => bm.setBit h false) t.bitmap
      some (hbas, { t with bitmap := bitmap',
                           next_avail := hbas.getLast?.getD 0 + 1 })

/-- `AllocTable::alloc_batch`.  The source checks `num_free < cnt` and
returns `OutOfDisk` at once; the condition-variable wait that follows this
early return can never run (`while *num_free < cnt { ... }` is entered only
when the early return did not fire), so the embedding has no waiting. -/
def allocBatch (t : AllocTable) (cnt : Nat) : Except Errno (List Nat × AllocTable) :=
  if t.num_free < cnt then .error .OutOfDisk
  else
    match doAllocBatch t cnt with
    | none => .error .OutOfDisk
    | some (hbas, t') =>
      let seg' := t'.segment_table.map (fun st =>
        hbas.foldl (fun st hba => updateSegAt st (hba / SEGMENT_SIZE) Segment.mark_alloc) st)
      .ok (hbas, { t' with segment_table := seg',
                           num_free := t'.num_free - cnt, is_dirty := true })

/-- `AllocTable::set_deallocated`: set the bit, mark the segment deallocated
under GC, increment `num_free` (the condvar notification has no sequential
effect). -/
def set_deallocated (t : AllocTable) (nth : Nat) : AllocTable :=
  let bitmap' := t.bitmap.setBit nth true
  let seg' := t.segment_table.map
    (fun st => updateSegAt st (nth / SEGMENT_SIZE) Segment.mark_deallocated)
  { t with bitmap := bitmap', segment_table := seg', num_free := t.num_free + 1 }

/-- `AllocTable::migrate_batch`: clear the bits of the target HBAs and mark
their segments allocated, without changing `num_free`. -/
def migrateBatch (t : AllocTable) (hbas : List Nat) : AllocTable :=
  let bitmap' := hbas.foldl (fun bm h => bm.setBit h false) t.bitmap
  let seg' := t.segment_table.map (fun st =>
    hbas.foldl (fun st hba => updateSegAt st (hba / SEGMENT_SIZE) Segment.mark_alloc) st)
  { t with bitmap := bitmap', segment_table := seg' }

/-- `AllocTable::clear_segment`: add `discard_count` to `num_free`, set all
the segment's bits free, reset the segment's counters. -/
def clearSegment (t : AllocTable) (segment_id discard_count : Nat) : AllocTable :=
  let begin_hba := segment_id * SEGMENT_SIZE
  let bitmap' := (List.range SEGMENT_SIZE).foldl
    (fun bm i => bm.setBit (begin_hba + i) true) t.bitmap
  let seg' := t.segment_table.map
    (fun st => updateSegAt st segment_id Segment.clearSeg)
  { t with bitmap := bitmap', segment_table := seg',
           num_free := t.num_free + discard_count }

end AllocTable

/-! ## Dealloc table (`dealloc_block.rs`) -/

/-- `DeallocTable`: one flag bit per HBA. -/
structure DeallocTable where
  bits : BitMap
deriving DecidableEq, Repr

namespace DeallocTable

/-- `DeallocTable::new`: all flags clear. -/
def new (nblocks : Nat) : DeallocTable := ⟨BitMap.repeatBit false nblocks⟩

/-- `DeallocTable::has_deallocated` -/
def has_deallocated (d : DeallocTable) (hba : Nat) : Bool := d.bits.testBit hba

/-- `DeallocTable::finish_deallocated` -/
def finish_deallocated (d : DeallocTable) (hba : Nat) : DeallocTable :=
  ⟨d.bits.setBit hba false⟩

/-- `DeallocTable::mark_deallocated` -/
def mark_deallocated (d : DeallocTable) (hba : Nat) : DeallocTable :=
  ⟨d.bits.setBit hba true⟩

end DeallocTable

/-! ## Per-TX diff table (`BlockAlloc`) and the TX listener -/

/-- Insertion into the per-TX `BTreeMap<Hba, AllocDiff>`: sorted association
list, replacing an existing binding. -/
def insertDiff (l : List (Nat × AllocDiff)) (k : Nat) (v : AllocDiff) :
    List (Nat × AllocDiff) :=
  match l with
  | [] => [(k, v)]
  | (k', v') :: rest =>
    if k < k' then (k, v) :: (k', v') :: rest
    else if k = k' then (k, v) :: rest
    else (k', v') :: insertDiff rest k v

/-- Look up a key in the per-TX diff table. -/
def lookupDiff (l : List (Nat × AllocDiff)) (k : Nat) : Option AllocDiff :=
  match l with
  | [] => none
  | (k', v') :: rest => if k = k' then some v' else lookupDiff rest k

/-- One step of the `update_alloc_table` loop: a `Dealloc` diff sets the
bit and counts one deallocation; `Alloc` diffs are already reflected by the
allocator and `Invalid` is `unreachable!()` in the source, so both leave
the state unchanged. -/
def updateStep (acc : BitMap × Nat) (kv : Nat × AllocDiff) : BitMap × Nat :=
  match kv.2 with
  | .Dealloc => (acc.1.setBit kv.1 true, acc.2 + 1)
  | _ => acc

/-- `BlockAlloc::update_alloc_table`: apply only the `Dealloc` diffs to the
bitmap, add their number to `num_free`. -/
def AllocTable.updateAllocTable (t : AllocTable) (diff : List (Nat × AllocDiff)) :
    AllocTable :=
  let folded := diff.foldl updateStep (t.bitmap, 0)
  { t with bitmap := folded.1, num_free := t.num_free + folded.2 }

/-- TX types of the LSM-tree listener (`TxType`); level 0 is the minor
compaction target `L0`. -/
inductive TxType where
  | compaction (to_level : Nat)
  | migration
deriving DecidableEq, Repr

/-- The listener state that `TxLsmTreeListener::on_drop_record` touches. -/
structure DropState where
  diff_table : List (Nat × AllocDiff)
  dealloc_table : DeallocTable
deriving DecidableEq, Repr

/-- `TxLsmTreeListener::on_drop_record` (`sworndisk.rs`): unreachable for a
minor compaction (`none`); for a major compaction or migration, a flagged
HBA gets its flag cleared and is not deallocated, otherwise a `Dealloc`
diff is recorded. -/
def onDropRecord (tx : TxType) (st : DropState) (hba : Nat) : Option DropState :=
  match tx with
  | .compaction 0 => none
  | _ =>
    if st.dealloc_table.has_deallocated hba then
      some { st with dealloc_table := st.dealloc_table.finish_deallocated hba }
    else
      some { st with diff_table := insertDiff st.diff_table hba .Dealloc }

/-- The `on_drop_record_in_memtable` callback (`sworndisk.rs`): a flagged HBA
gets its flag cleared and is not deallocated; otherwise it is deallocated in
the validity table. -/
def onDropRecordInMemtable (dealloc : DeallocTable) (table : AllocTable)
    (hba : Nat) : DeallocTable × AllocTable :=
  if dealloc.has_deallocated hba then (dealloc.finish_deallocated hba, table)
  else (dealloc, table.set_deallocated hba)

/-! ## Data buffer

Modelled from the spec: `data_buf.rs` is repository code that is not under
`src/`.  Spec section 4.C: a bounded LBA → block map with
put/get/get_range/clear/all_blocks/is_empty, insertion-ordered iteration,
no eviction; `put` reports whether capacity has been reached. -/
structure DataBuf where
  entries : List (Nat × Block)
  cap : Nat
deriving DecidableEq, Repr

namespace DataBuf

/-- Modelled from the spec: an empty buffer of capacity `cap`. -/
def new (cap : Nat) : DataBuf := ⟨[], cap⟩

/-- Modelled from the spec: lookup by LBA. -/
def get (d : DataBuf) (lba : Nat) : Option Block :=
  (d.entries.find? (fun kv => kv.1 = lba)).map Prod.snd

/-- Modelled from the spec: insert (replacing any entry for the same LBA),
returning whether the buffer has reached capacity together with the new
buffer. -/
def put (d : DataBuf) (lba : Nat) (b : Block) : Bool × DataBuf :=
  let entries' := (d.entries.filter (fun kv => kv.1 ≠ lba)) ++ [(lba, b)]
  (decide (d.cap ≤ entries'.length), ⟨entries', d.cap⟩)

/-- Modelled from the spec: insertion-order entries whose LBA lies in
`[lo, lo + n)`. -/
def getRange (d : DataBuf) (lo n : Nat) : List (Nat × Block) :=
  d.entries.filter (fun kv => lo ≤ kv.1 ∧ kv.1 < lo + n)

/-- Modelled from the spec: all entries in insertion order. -/
def allBlocks (d : DataBuf) : List (Nat × Block) := d.entries

/-- Modelled from the spec: drain the buffer. -/
def clearBuf (d : DataBuf) : DataBuf := ⟨[], d.cap⟩

/-- Modelled from the spec: emptiness test. -/
def isEmpty (d : DataBuf) : Bool := d.entries.isEmpty

end DataBuf

/-! ## Authenticated encryption

Modelled from the spec: the AEAD primitive is an out-of-scope external
collaborator (spec section 1); keys are per-block and random, the IV is
zero, and decryption with the recorded key and MAC inverts encryption.  The
model uses a keyed byte-wise involution and a trivial MAC. -/

/-- Modelled from the spec: encrypt a block under key `k`. -/
def encryptBlock (k : Nat) (b : Block) : Block := b.map (fun x => x ^^^ k)

/-- Modelled from the spec: decrypt a block under key `k`. -/
def decryptBlock (k : Nat) (c : Block) : Block := c.map (fun x => x ^^^ k)

/-! ## Association lists (shared by the disk, index and store models) -/

/-- Lookup in an association list with `Nat` keys. -/
def assocGet {α : Type} : List (Nat × α) → Nat → Option α
  | [], _ => none
  | (k', v) :: rest, k => if k = k' then some v else assocGet rest k

/-- Update (or append) a binding in an association list. -/
def assocSet {α : Type} : List (Nat × α) → Nat → α → List (Nat × α)
  | [], k, v => [(k, v)]
  | (k', v') :: rest, k, v =>
    if k = k' then (k, v) :: rest else (k', v') :: assocSet rest k v

/-! ## User-data disk

Modelled from the spec: the user-data disk is an external `BlockSet` (spec
sections 1 and 3): a concurrently usable block store with block read, block
write and flush, where writes may fail with `IoFailed`.  The model keeps a
set of bad blocks on which writes fail, and a durable copy updated by
`flush`. -/
structure Disk where
  data : List (Nat × Block)
  bad : List Nat
  durable : List (Nat × Block)
deriving DecidableEq, Repr

namespace Disk

/-- Modelled from the spec: read one block (never-written blocks read as an
unspecified value, here `[]`). -/
def readBlock (d : Disk) (hba : Nat) : Except Errno Block :=
  .ok ((assocGet d.data hba).getD [])

/-- Write blocks at consecutive addresses starting at `start`. -/
def writeSeq : List (Nat × Block) → Nat → List Block → List (Nat × Block)
  | data, _, [] => data
  | data, start, b :: bs => writeSeq (assocSet data start b) (start + 1) bs

/-- Modelled from the spec: one contiguous multi-block write; fails with
`IoFailed` (leaving the disk unchanged) when it touches a bad block. -/
def writeRun (d : Disk) (start : Nat) (bs : List Block) : Except Errno Disk :=
  if (List.range bs.length).any (fun i => (start + i) ∈ d.bad) then .error .IoFailed
  else .ok { d with data := writeSeq d.data start bs }

/-- Modelled from the spec: `flush` makes the volatile contents durable. -/
def flushDisk (d : Disk) : Disk := { d with durable := d.data }

end Disk

/-! ## TX log store

Modelled from the spec: the transactional log store is an out-of-scope
external collaborator (spec section 1): buckets (`BVT`, `SEG`, `BAL`) of
append-only logs with create/open/list/delete under a TX and a `sync` making
them durable.  Log contents are kept at the natural abstraction level per
bucket (a bitmap snapshot, packed segment counters, raw diff bytes). -/
structure StoreData where
  bvt : List (Nat × BitMap)
  seg : List (Nat × List (Nat × Nat))
  bal : List (Nat × List Nat)
  next_log_id : Nat
deriving DecidableEq, Repr

/-- Modelled from the spec: a log store with its durable copy. -/
structure TxLogStore where
  data : StoreData
  durable : StoreData
deriving DecidableEq, Repr

/-- Modelled from the spec: `TxLogStore::sync`. -/
def TxLogStore.syncStore (s : TxLogStore) : TxLogStore := { s with durable := s.data }

/-- `AllocTable::do_compaction` (`block_alloc.rs`): skipped unless dirty;
otherwise, in one TX, delete all `BVT` logs (and `SEG` logs under GC),
create a fresh `BVT` snapshot log (and `SEG` log under GC), delete all
`BAL` logs; finally clear the dirty flag.  Serialization is modelled as the
identity. -/
def AllocTable.doCompaction (t : AllocTable) (store : TxLogStore) :
    AllocTable × TxLogStore :=
  if t.is_dirty = false then (t, store)
  else
    let ser := t.bitmap
    let ser_seg := t.segment_table.map
      (fun st => st.map (fun s => (s.valid_block, s.free_space)))
    let d0 := store.data
    let d1 := { d0 with bvt := [] }
    let d2 := match ser_seg with
      | some _ => { d1 with seg := [] }
      | none => d1
    let d3 := { d2 with bvt := [(d2.next_log_id, ser)],
                        next_log_id := d2.next_log_id + 1 }
    let d4 := match ser_seg with
      | some sg => { d3 with seg := d3.seg ++ [(d3.next_log_id, sg)],
                             next_log_id := d3.next_log_id + 1 }
      | none => d3
    let d5 := { d4 with bal := [] }
    ({ t with is_dirty := false }, { store with data := d5 })

/-- The value of a forward-index `Record` (`sworndisk.rs`): host block
address, per-block encryption key, MAC. -/
structure RecordValue where
  hba : Nat
  key : Nat
  mac : Nat
deriving DecidableEq, Repr

/-! ## Disk layer state (`DiskInner`) -/

/-- The configuration options the embedded operations read (`config.rs`). -/
structure Config where
  enable_gc : Bool
  delayed_reclamation : Bool
deriving DecidableEq, Repr

/-- The state of `DiskInner` together with its collaborators.  The forward
index (`logical_block_table`) and reverse index are the LSM maps they
implement; `compaction_count` counts `manual_compaction` requests issued to
the external LSM. -/
structure State where
  config : Config
  data_buf : DataBuf
  logical_block_table : List (Nat × RecordValue)
  reverse_index_table : List (Nat × Nat)
  dealloc_table : DeallocTable
  block_validity_table : AllocTable
  user_data_disk : Disk
  tx_log_store : TxLogStore
  key_counter : Nat
  is_active : Bool
  compaction_count : Nat
deriving DecidableEq, Repr

namespace State

/-- A forward-index `put`.  When the key already carries a record, the put
supersedes it in the memtable and the LSM fires the
`on_drop_record_in_memtable` callback on the superseded record (the source
relies on the contract that only the latest record for an LBA is in the
memtable, spec section 9(d)). -/
def putRecord (s : State) (lba : Nat) (v : RecordValue) : State :=
  match assocGet s.logical_block_table lba with
  | none => { s with logical_block_table := assocSet s.logical_block_table lba v }
  | some old =>
    let cb := onDropRecordInMemtable s.dealloc_table s.block_validity_table old.hba
    { s with logical_block_table := assocSet s.logical_block_table lba v,
             dealloc_table := cb.1, block_validity_table := cb.2 }

/-- `TxLsmTree::manual_compaction`, an external LSM request; the model counts
the requests. -/
def manualCompaction (s : State) : State :=
  { s with compaction_count := s.compaction_count + 1 }

end State

/-- `group_by(|hba1, hba2| hba2 - hba1 == 1)`: split a list of HBAs into
maximal runs of consecutive addresses. -/
def groupRuns : List Nat → List (List Nat)
  | [] => []
  | h :: t =>
    match groupRuns t with
    | [] => [[h]]
    | [] :: gs => [h] :: [] :: gs
    | (x :: g) :: gs =>
      if x = h + 1 then (h :: x :: g) :: gs else [h] :: (x :: g) :: gs

/-- Encrypt a batch of (LBA, block) pairs against their HBAs with fresh
per-block keys drawn from the key counter, producing the cipher blocks, the
forward-index records and the advanced counter
(`write_blocks_from_data_buf`, inner loop). -/
def encryptBatch : Nat → List ((Nat × Block) × Nat) →
    List Block × List (Nat × RecordValue) × Nat
  | keyc, [] => ([], [], keyc)
  | keyc, ((lba, blk), hba) :: rest =>
    let c := encryptBlock keyc blk
    let r := encryptBatch (keyc + 1) rest
    (c :: r.1, (lba, ⟨hba, keyc, 0⟩) :: r.2.1, r.2.2)

/-- The per-run loop of `write_blocks_from_data_buf`: for each contiguous
HBA run, encrypt the corresponding data blocks into a cipher buffer and
issue one disk write for the whole run. -/
def writeBatches :
    State → List (Nat × Block) → List (List Nat) →
      Except Errno (State × List (Nat × RecordValue))
  | s, _, [] => .ok (s, [])
  | s, blocks, run :: runs =>
    let batch := blocks.take run.length
    let eb := encryptBatch s.key_counter (batch.zip run)
    match s.user_data_disk.writeRun (run.headD 0) eb.1 with
    | .error e => .error e
    | .ok d' =>
      match writeBatches { s with user_data_disk := d', key_counter := eb.2.2 }
          (blocks.drop run.length) runs with
      | .error e => .error e
      | .ok (s', recs') => .ok (s', eb.2.1 ++ recs')

namespace State

/-- `DiskInner::write_blocks_from_data_buf`: collect the buffered blocks in
insertion order (empty: done), allocate a batch of HBAs, group them into
contiguous runs, encrypt and write each run. -/
def writeBlocksFromDataBuf (s : State) :
    Except Errno (State × List (Nat × RecordValue)) :=
  let data_blocks := s.data_buf.allBlocks
  if data_blocks.length = 0 then .ok (s, [])
  else
    match s.block_validity_table.allocBatch data_blocks.length with
    | .error e => .error e
    | .ok (hbas, table') =>
      writeBatches { s with block_validity_table := table' } data_blocks
        (groupRuns hbas)

/-- The record-insertion loop of `flush_data_buf`: put each new record into
the forward index (with the eager-reclamation pre-`get`, a pure lookup with
no separate effect here) and, under GC, the reverse record into the reverse
index. -/
def insertRecords (s : State) (records : List (Nat × RecordValue)) : State :=
  records.foldl
    (fun s kv =>
      let s := s.putRecord kv.1 kv.2
      if s.config.enable_gc then
        { s with reverse_index_table := assocSet s.reverse_index_table kv.2.hba kv.1 }
      else s)
    s

/-- The tail of `flush_data_buf` on a successful write: insert the records,
mark the disk active, clear the data buffer. -/
def finishFlush (s : State) (records : List (Nat × RecordValue)) : State :=
  let s := s.insertRecords records
  { s with is_active := true, data_buf := s.data_buf.clearBuf }

/-- `DiskInner::flush_data_buf`: write the buffered blocks; on `OutOfDisk`
request one manual LSM compaction and retry once; propagate any other error
(and the retry's error) to the caller. -/
def flushDataBuf (s : State) : Except Errno State :=
  match s.writeBlocksFromDataBuf with
  | .ok (s', records) => .ok (s'.finishFlush records)
  | .error e =>
    if e = .OutOfDisk then
      match s.manualCompaction.writeBlocksFromDataBuf with
      | .error e' => .error e'
      | .ok (s', records) => .ok (s'.finishFlush records)
    else .error e

/-- `DiskInner::write`: put each block into the data buffer, flushing
whenever the buffer reaches capacity. -/
def write (s : State) (lba : Nat) (bufs : List Block) : Except Errno State :=
  match bufs with
  | [] => .ok s
  | b :: rest =>
    let pr := s.data_buf.put lba b
    let s1 := { s with data_buf := pr.2 }
    if pr.1 then
      match s1.flushDataBuf with
      | .error e => .error e
      | .ok s2 => write s2 (lba + 1) rest
    else write s1 (lba + 1) rest

/-- `DiskInner::read_one_block`: data buffer first, then the forward index
(`NotFound` when the LBA was never written), then one disk read and
decryption with the record's key and MAC. -/
def readOneBlock (s : State) (lba : Nat) : Except Errno Block :=
  match s.data_buf.get lba with
  | some b => .ok b
  | none =>
    match assocGet s.logical_block_table lba with
    | none => .error .NotFound
    | some v =>
      match s.user_data_disk.readBlock v.hba with
      | .error e => .error e
      | .ok cipher => .ok (decryptBlock v.key cipher)

/-- `DiskInner::read_multi_blocks`: serve data-buffer hits, then range-query
the forward index for the uncompleted LBAs (`NotFound` when none of them
carries a record), then read and decrypt the found records.  The source
sorts the records by HBA and batches consecutive HBAs into single disk
reads; block-wise this reads each record's HBA once, which is how the model
states it. -/
def readMultiBlocks (s : State) (lba n : Nat) :
    Except Errno (List (Nat × Block)) :=
  let hits := s.data_buf.getRange lba n
  let hitKeys := hits.map Prod.fst
  let remaining := ((List.range n).map (lba + ·)).filter (fun l => ¬ hitKeys.contains l)
  if remaining.isEmpty then .ok hits
  else
    let found := remaining.filterMap
      (fun l => (assocGet s.logical_block_table l).map (fun v => (l, v)))
    if found.isEmpty then .error .NotFound
    else
      .ok (hits ++ found.map (fun lv =>
        (lv.1, decryptBlock lv.2.key ((assocGet s.user_data_disk.data lv.2.hba).getD []))))

/-- `DiskInner::read` for a one-block buffer: an inner `NotFound` is an
empty read and is swallowed; the caller's buffer is then unchanged
(`none`). -/
def readSingle (s : State) (lba : Nat) : Except Errno (Option Block) :=
  match s.readOneBlock lba with
  | .ok b => .ok (some b)
  | .error e => if e = .NotFound then .ok none else .error e

/-- `DiskInner::readv`: an inner `NotFound` is an empty read and is
swallowed; the caller then keeps only what the data-buffer phase wrote. -/
def readv (s : State) (lba n : Nat) : Except Errno (List (Nat × Block)) :=
  match s.readMultiBlocks lba n with
  | .ok res => .ok res
  | .error e =>
    if e = .NotFound then .ok (s.data_buf.getRange lba n) else .error e

/-- `DiskInner::sync`: flush the data buffer, compact the validity table,
sync the TX log store, flush the user-data disk. -/
def sync (s : State) : Except Errno State :=
  match s.flushDataBuf with
  | .error e => .error e
  | .ok s1 =>
    let tc := s1.block_validity_table.doCompaction s1.tx_log_store
    let s2 := { s1 with block_validity_table := tc.1, tx_log_store := tc.2 }
    let s3 := { s2 with tx_log_store := s2.tx_log_store.syncStore }
    .ok { s3 with user_data_disk := s3.user_data_disk.flushDisk }

/-- `SwornDisk::check_rw_args`: the request must lie inside the data disk. -/
def checkRwArgs (s : State) (lba nblocks : Nat) : Bool :=
  decide (lba + nblocks ≤ s.block_validity_table.nblocks)

/-- `SwornDisk::read` (single-buffer surface): argument check, then the
inner read. -/
def diskRead (s : State) (lba : Nat) : Except Errno (Option Block) :=
  if s.checkRwArgs lba 1 then s.readSingle lba else .error .OutOfDisk

/-- `SwornDisk::readv` surface: argument check, then the inner readv. -/
def diskReadv (s : State) (lba n : Nat) : Except Errno (List (Nat × Block)) :=
  if s.checkRwArgs lba n then s.readv lba n else .error .OutOfDisk

/-- `SwornDisk::write` surface: argument check, then the inner write. -/
def diskWrite (s : State) (lba : Nat) (bufs : List Block) : Except Errno State :=
  if s.checkRwArgs lba bufs.length then s.write lba bufs else .error .OutOfDisk

end State

/-! ## GC worker (`gc.rs`) -/

/-- `ACTIVE_GC_INTERVAL_TIME` (5 s), in milliseconds. -/
def ACTIVE_GC_INTERVAL_TIME_MS : Nat := 5000

/-- `INACTIVE_GC_INTERVAL_TIME` (100 ms), in milliseconds. -/
def INACTIVE_GC_INTERVAL_TIME_MS : Nat := 100

/-- The sleep the tail of `GcWorker::run` performs after releasing the GC
barrier: the active branch sleeps `ACTIVE_GC_INTERVAL_TIME`, the idle
branch `INACTIVE_GC_INTERVAL_TIME` (both branches also reset the active
flag). -/
def gcSleepDurationMs (was_active : Bool) : Nat :=
  if was_active then ACTIVE_GC_INTERVAL_TIME_MS else INACTIVE_GC_INTERVAL_TIME_MS

/-- `ACTIVE_GC_THRESHOLD` (0.6). -/
def ACTIVE_GC_THRESHOLD : ℚ := 6 / 10

/-- `INACTIVE_GC_THRESHOLD` (0.1). -/
def INACTIVE_GC_THRESHOLD : ℚ := 1 / 10

/-- A GC victim (`gc.rs`, `struct Victim`). -/
structure Victim where
  segment_id : Nat
  blocks : List Nat
deriving DecidableEq, Repr

/-- The loop body of `LoopScanVictimPolicy::pick_victim`, with fuel bounding
the number of probes (the source loop stops at the latest when the cursor
wraps back to `last_cursor`; `segment_table.length` probes always reach that
point when `last_cursor` is a valid index). -/
def loopScanGo (bitmap : BitMap) (segment_table : List Segment) (threshold : ℚ)
    (last_cursor : Nat) : Nat → Nat → Option Victim
  | 0, _ => none
  | fuel + 1, cursor =>
    let cursor' := (cursor + 1) % segment_table.length
    if cursor' = last_cursor then none
    else
      let segment := segment_table.getD cursor' (Segment.new 0 0)
      if (segment.num_invalid_blocks : ℚ) / (segment.nblocks : ℚ) > threshold then
        some ⟨cursor', segment.find_all_allocated_blocks bitmap⟩
      else loopScanGo bitmap segment_table threshold last_cursor fuel cursor'

/-- `LoopScanVictimPolicy::pick_victim`: starting from the stored cursor,
probe `(cursor+1) % len, (cursor+2) % len, ...`; return `none` as soon as
the probe wraps back to the stored cursor, otherwise the first segment whose
invalid-block fraction exceeds the threshold. -/
def loopScanPickVictim (bitmap : BitMap) (segment_table : List Segment)
    (threshold : ℚ) (last_cursor : Nat) : Option Victim :=
  loopScanGo bitmap segment_table threshold last_cursor segment_table.length
    last_cursor

/-! ## Recovery (`AllocTable::recover`) -/

/-- `BlockId::from_bytes` on a little-endian byte slice. -/
def fromLeBytes (bs : List Nat) : Nat := bs.foldr (fun b acc => b + 256 * acc) 0

/-- The `while` loop of `AllocTable::recover` over one `BAL` log's bytes:
while at least one whole record (tag byte + 8 HBA bytes) may start at the
offset, read the tag; an `Invalid` tag advances one byte; `Alloc` clears and
`Dealloc` sets the bit of the 8-byte little-endian HBA that follows. -/
def applyDiffBytes (bm : BitMap) (bytes : List Nat) : BitMap :=
  if 9 ≤ bytes.length then
    match AllocDiff.fromByte (bytes.headD 0) with
    | .Invalid => applyDiffBytes bm (bytes.drop 1)
    | .Alloc =>
      applyDiffBytes (bm.setBit (fromLeBytes ((bytes.drop 1).take 8)) false)
        (bytes.drop 9)
    | .Dealloc =>
      applyDiffBytes (bm.setBit (fromLeBytes ((bytes.drop 1).take 8)) true)
        (bytes.drop 9)
  else bm
termination_by bytes.length
decreasing_by
  · simp [List.length_drop]; omega
  · simp [List.length_drop]; omega
  · simp [List.length_drop]; omega

/-- Insert a `BAL` log into a list sorted by ascending log id. -/
def insertById (x : Nat × List Nat) : List (Nat × List Nat) → List (Nat × List Nat)
  | [] => [x]
  | y :: rest => if x.1 ≤ y.1 then x :: y :: rest else y :: insertById x rest

/-- `bal_log_ids.sort()`: the `BAL` logs in ascending id order. -/
def sortById (l : List (Nat × List Nat)) : List (Nat × List Nat) :=
  l.foldr insertById []

/-- `open_log_in`: the latest (largest-id) log of a bucket. -/
def latestEntry {α : Type} : List (Nat × α) → Option (Nat × α)
  | [] => none
  | x :: rest =>
    match latestEntry rest with
    | none => some x
    | some y => if y.1 ≤ x.1 then some x else some y

/-- `recover_segment_table` (`segment.rs`): one segment per
`SEGMENT_SIZE`-block chunk, counters taken from the packed snapshot. -/
def recoverSegmentTable (segment_nums : Nat) (pairs : List (Nat × Nat)) :
    List Segment :=
  (List.range segment_nums).map (fun id =>
    let p := pairs.getD id (SEGMENT_SIZE, SEGMENT_SIZE)
    { segment_id := id, valid_block := p.1, free_space := p.2,
      nblocks := SEGMENT_SIZE })

/-- The segment-table recovery closure of `AllocTable::recover`: only under
GC; from the latest `SEG` log when present, from scratch on `NotFound`. -/
def recoverSegTableFromLog (nblocks : Nat) (enable_gc : Bool)
    (store : StoreData) : Option (List Segment) :=
  if enable_gc then
    let segment_nums := nblocks / SEGMENT_SIZE
    some (match latestEntry store.seg with
      | some e => recoverSegmentTable segment_nums e.2
      | none => (List.range segment_nums).map
          (fun id => Segment.new id SEGMENT_SIZE))
  else none

/-- `AllocTable::recover`: seed the bitmap from the latest `BVT` log (all
free when the bucket is absent); iterate the `BAL` logs in ascending id
order applying each diff; derive `next_avail` and `num_free` from the final
bitmap.  (A `NotFound` on listing the `BAL` bucket takes the source's early
return, which coincides with folding over no logs.) -/
def AllocTable.recover (nblocks : Nat) (enable_gc : Bool) (store : StoreData) :
    AllocTable :=
  let bitmap0 := match latestEntry store.bvt with
    | some e => e.2
    | none => BitMap.repeatBit true nblocks
  let bitmap := (sortById store.bal).foldl (fun bm log => applyDiffBytes bm log.2)
    bitmap0
  { bitmap := bitmap,
    segment_table := recoverSegTableFromLog nblocks enable_gc store,
    next_avail := (bitmap.firstOne 0).getD 0,
    nblocks := nblocks,
    is_dirty := false,
    num_free := bitmap.countOnes }

/-- Declarative reading of the spec's recovery description: parse each `BAL`
log into its list of diff records (unknown tags `Invalid`). -/
def parseRecords (bytes : List Nat) : List (AllocDiff × Nat) :=
  if 9 ≤ bytes.length then
    match AllocDiff.fromByte (bytes.headD 0) with
    | .Invalid => parseRecords (bytes.drop 1)
    | d => (d, fromLeBytes ((bytes.drop 1).take 8)) :: parseRecords (bytes.drop 9)
  else []
termination_by bytes.length
decreasing_by
  · simp [List.length_drop]; omega
  · simp [List.length_drop]; omega

/-- Declarative reading: apply one parsed diff record to the bitmap. -/
def applyRecord (bm : BitMap) (r : AllocDiff × Nat) : BitMap :=
  match r.1 with
  | .Alloc => bm.setBit r.2 false
  | .Dealloc => bm.setBit r.2 true
  | .Invalid => bm

/-- Declarative reading of `AllocTable::recover`, following the spec's
words: seed from the latest `BVT` snapshot (or all-free), apply every parsed
record of every `BAL` log in ascending log-id order, then derive
`next_avail` and `num_free` from the resulting bitmap. -/
def recoverSpec (nblocks : Nat) (enable_gc : Bool) (store : StoreData) :
    AllocTable :=
  let bitmap0 := match latestEntry store.bvt with
    | some e => e.2
    | none => BitMap.repeatBit true nblocks
  let records := ((sortById store.bal).map (fun log => parseRecords log.2)).flatten
  let bitmap := records.foldl applyRecord bitmap0
  { bitmap := bitmap,
    segment_table := recoverSegTableFromLog nblocks enable_gc store,
    next_avail := (bitmap.firstOne 0).getD 0,
    nblocks := nblocks,
    is_dirty := false,
    num_free := bitmap.countOnes }

/-- The forward-index records that a flush produces for the buffered blocks
`entries` paired positionally with the allocated HBAs, with consecutive
fresh keys starting at `keyc`. -/
def mkRecords : Nat → List (Nat × Block) → List Nat → List (Nat × RecordValue)
  | _, [], _ => []
  | _, _ :: _, [] => []
  | keyc, (l, _) :: es, h :: hs =>
    (l, ⟨h, keyc, 0⟩) :: mkRecords (keyc + 1) es hs

/-- The cipher blocks a flush writes, keyed by their target HBAs. -/
def mkCipherWrites : Nat → List (Nat × Block) → List Nat → List (Nat × Block)
  | _, [], _ => []
  | _, _ :: _, [] => []
  | keyc, (_, b) :: es, h :: hs =>
    (h, encryptBlock keyc b) :: mkCipherWrites (keyc + 1) es hs

/-- Apply a list of keyed block writes to an association-list disk image. -/
def applyWrites (data : List (Nat × Block)) (ws : List (Nat × Block)) :
    List (Nat × Block) :=
  ws.foldl (fun d p => assocSet d p.1 p.2) data

/-- The state invariant of the read/write path: the bitmap matches the disk
size, `num_free` is the bitmap popcount, forward-index keys and referenced
HBAs are duplicate-free, every referenced HBA is in range and marked
allocated, and the data-buffer keys are duplicate-free. -/
def DiskInv (s : State) : Prop :=
  s.block_validity_table.bitmap.length = s.block_validity_table.nblocks ∧
  s.block_validity_table.num_free = s.block_validity_table.bitmap.countOnes ∧
  (s.logical_block_table.map Prod.fst).Nodup ∧
  (s.logical_block_table.map (fun kv => kv.2.hba)).Nodup ∧
  (∀ kv ∈ s.logical_block_table,
    kv.2.hba < s.block_validity_table.nblocks ∧
    s.block_validity_table.bitmap.testBit kv.2.hba = false) ∧
  (s.data_buf.entries.map Prod.fst).Nodup

instance (s : State) : Decidable (DiskInv s) := by
  unfold DiskInv; infer_instance

/-- Reading LBA `l` through `read_one_block` yields exactly `b`. -/
def GoodRead (s : State) (l : Nat) (b : Block) : Prop :=
  s.readOneBlock l = .ok b

/-- The first five conjuncts of `DiskInv`, phrased over a forward index and
a validity table so they can be threaded through the record-insertion
fold. -/
def CoreInv (table : List (Nat × RecordValue)) (t : AllocTable) : Prop :=
  t.bitmap.length = t.nblocks ∧
  t.num_free = t.bitmap.countOnes ∧
  (table.map Prod.fst).Nodup ∧
  (table.map (fun kv => kv.2.hba)).Nodup ∧
  (∀ kv ∈ table, kv.2.hba < t.nblocks ∧ t.bitmap.testBit kv.2.hba = false)

/-- The body of the `insertRecords` fold as a named function. -/
def insertStep (s : State) (kv : Nat × RecordValue) : State :=
  let s := s.putRecord kv.1 kv.2
  if s.config.enable_gc then
    { s with reverse_index_table := assocSet s.reverse_index_table kv.2.hba kv.1 }
  else s

/-- A small fresh disk: four blocks, GC off, empty buffer of capacity
four. -/
def c1S0 : State :=
  { config := ⟨false, false⟩,
    data_buf := DataBuf.new 4,
    logical_block_table := [],
    reverse_index_table := [],
    dealloc_table := DeallocTable.new 4,
    block_validity_table := AllocTable.new 4 false,
    user_data_disk := ⟨[], [], []⟩,
    tx_log_store := ⟨⟨[], [], [], 0⟩, ⟨[], [], [], 0⟩⟩,
    key_counter := 0,
    is_active := false,
    compaction_count := 0 }

/-- The state after writing one block to LBA 0 of `c1S0`. -/
def c1S1 : State :=
  match State.write c1S0 0 [[7]] with
  | .ok s => s
  | .error _ => c1S0

/-- The state after flushing the data buffer of `c1S1`. -/
def c1S2 : State :=
  match State.flushDataBuf c1S1 with
  | .ok s => s
  | .error _ => c1S1

/-- The invariant of claim C3: `num_free` equals the popcount of the
validity bitmap. -/
def validityInv (t : AllocTable) : Prop := t.num_free = t.bitmap.countOnes

instance (t : AllocTable) : Decidable (validityInv t) := by
  unfold validityInv; infer_instance

/-! # Lemma library -/

theorem decryptBlock_encryptBlock (k : Nat) (b : Block) :
    decryptBlock k (encryptBlock k b) = b := by
  simp [decryptBlock, encryptBlock, Function.comp_def, Nat.xor_assoc]


namespace BitMap

theorem length_setBit (m : BitMap) (i : Nat) (b : Bool) :
    (m.setBit i b).length = m.length := by
  induction m generalizing i with
  | nil => rfl
  | cons x rest ih =>
    cases i with
    | zero => rfl
    | succ n => simp [setBit, ih]

theorem testBit_setBit (m : BitMap) (i j : Nat) (b : Bool) :
    (m.setBit i b).testBit j =
      if i = j ∧ j < m.length then b else m.testBit j := by
  induction m generalizing i j with
  | nil => simp [setBit, testBit]
  | cons x rest ih =>
    cases i with
    | zero =>
      cases j with
      | zero => simp [setBit, testBit]
      | succ jn => simp [setBit, testBit]
    | succ n =>
      cases j with
      | zero => simp [setBit, testBit]
      | succ jn =>
        simp only [setBit, testBit, List.length_cons]
        rw [ih]
        split_ifs with h1 h2 h2 <;> first | rfl | omega

theorem countOnes_setBit_false (m : BitMap) (i : Nat) (h : m.testBit i = true) :
    m.countOnes = (m.setBit i false).countOnes + 1 := by
  induction m generalizing i with
  | nil => simp [testBit] at h
  | cons x rest ih =>
    cases i with
    | zero =>
      simp only [testBit] at h
      subst h
      simp [setBit, countOnes]
      omega
    | succ n =>
      simp only [testBit] at h
      have := ih n h
      simp only [setBit, countOnes]
      omega

theorem countOnes_setBit_true (m : BitMap) (i : Nat) (h : m.testBit i = false)
    (hlen : i < m.length) :
    (m.setBit i true).countOnes = m.countOnes + 1 := by
  induction m generalizing i with
  | nil => simp at hlen
  | cons x rest ih =>
    cases i with
    | zero =>
      simp only [testBit] at h
      subst h
      simp [setBit, countOnes]
      omega
    | succ n =>
      simp only [testBit] at h
      simp only [List.length_cons] at hlen
      have := ih n h (by omega)
      simp only [setBit, countOnes]
      omega

theorem mem_onesAux_ge {l : List Bool} {base i : Nat}
    (h : i ∈ onesAux l base) : base ≤ i := by
  induction l generalizing base with
  | nil => simp [onesAux] at h
  | cons x rest ih =>
    cases x with
    | true =>
      simp only [onesAux, if_true, List.mem_cons] at h
      rcases h with h | h
      · omega
      · have := ih h; omega
    | false =>
      simp only [onesAux, if_false] at h
      have := ih h; omega

theorem mem_onesAux_true {l : List Bool} {base i : Nat}
    (h : i ∈ onesAux l base) : testBit l (i - base) = true := by
  induction l generalizing base with
  | nil => simp [onesAux] at h
  | cons x rest ih =>
    cases x with
    | true =>
      simp only [onesAux, if_true, List.mem_cons] at h
      rcases h with h | h
      · subst h; simp [testBit]
      · have hge := mem_onesAux_ge h
        have hib : i - base = (i - (base + 1)) + 1 := by omega
        rw [hib]
        simpa [testBit] using ih h
    | false =>
      simp only [onesAux, if_false] at h
      have hge := mem_onesAux_ge h
      have hib : i - base = (i - (base + 1)) + 1 := by omega
      rw [hib]
      simpa [testBit] using ih h

theorem mem_onesAux_lt {l : List Bool} {base i : Nat}
    (h : i ∈ onesAux l base) : i < base + l.length := by
  induction l generalizing base with
  | nil => simp [onesAux] at h
  | cons x rest ih =>
    cases x with
    | true =>
      simp only [onesAux, if_true, List.mem_cons] at h
      rcases h with h | h
      · simp [h]
      · have := ih h; simp only [List.length_cons]; omega
    | false =>
      simp only [onesAux, if_false] at h
      have := ih h; simp only [List.length_cons]; omega

theorem onesAux_pairwise (l : List Bool) (base : Nat) :
    (onesAux l base).Pairwise (· < ·) := by
  induction l generalizing base with
  | nil => simp [onesAux]
  | cons x rest ih =>
    cases x with
    | true =>
      simp only [onesAux, if_true]
      exact List.Pairwise.cons
        (fun i hi => by have := mem_onesAux_ge hi; omega) (ih (base + 1))
    | false => simpa [onesAux] using ih (base + 1)

theorem onesAux_nodup (l : List Bool) (base : Nat) :
    (onesAux l base).Nodup :=
  (onesAux_pairwise l base).imp (fun h => Nat.ne_of_lt h)

theorem length_onesAux (l : List Bool) (base : Nat) :
    (onesAux l base).length = countOnes l := by
  induction l generalizing base with
  | nil => simp [onesAux, countOnes]
  | cons x rest ih =>
    cases x with
    | true => simp [onesAux, countOnes, ih]; omega
    | false => simp [onesAux, countOnes, ih]

theorem testBit_drop (m : BitMap) (s j : Nat) :
    testBit (m.drop s) j = m.testBit (s + j) := by
  induction s generalizing m with
  | zero => rw [List.drop_zero, Nat.zero_add]
  | succ n ih =>
    cases m with
    | nil => simp [testBit]
    | cons x rest =>
      have hnj : n + 1 + j = (n + j) + 1 := by omega
      rw [List.drop_succ_cons, ih rest, hnj]
      rfl

theorem mem_onesFrom_ge {m : BitMap} {s i : Nat} (h : i ∈ onesFrom m s) :
    s ≤ i := mem_onesAux_ge h

theorem mem_onesFrom_true {m : BitMap} {s i : Nat} (h : i ∈ onesFrom m s) :
    m.testBit i = true := by
  have h1 := mem_onesAux_true h
  have h2 := mem_onesAux_ge h
  rw [testBit_drop] at h1
  rwa [Nat.add_sub_cancel' h2] at h1

theorem mem_onesFrom_lt_length {m : BitMap} {s i : Nat} (h : i ∈ onesFrom m s) :
    i < m.length := by
  have h1 := mem_onesAux_lt h
  have h2 := mem_onesAux_ge h
  rw [List.length_drop] at h1
  omega

theorem onesFrom_nodup (m : BitMap) (s : Nat) : (onesFrom m s).Nodup :=
  onesAux_nodup _ _

theorem length_onesFrom_zero (m : BitMap) :
    (onesFrom m 0).length = m.countOnes := by
  simp only [onesFrom, List.drop_zero]
  exact length_onesAux m 0

end BitMap

namespace BitMap

theorem head_mem_of_head? {l : List Nat} {a : Nat} (h : l.head? = some a) :
    a ∈ l := by
  cases l with
  | nil => simp at h
  | cons x xs =>
    simp only [List.head?_cons, Option.some.injEq] at h
    subst h
    exact List.mem_cons_self _ _

theorem onesAux_head_drop {l : List Bool} {base a : Nat}
    (h : (onesAux l base).head? = some a) :
    onesAux (l.drop (a - base)) a = onesAux l base := by
  induction l generalizing base with
  | nil => simp [onesAux] at h
  | cons x rest ih =>
    cases x with
    | true =>
      simp only [onesAux, if_true, List.head?_cons, Option.some.injEq] at h
      subst h
      simp [onesAux]
    | false =>
      simp only [onesAux, if_false] at h
      have hmem := head_mem_of_head? h
      have hge : base + 1 ≤ a := mem_onesAux_ge hmem
      have hsub : a - base = (a - (base + 1)) + 1 := by omega
      rw [hsub, List.drop_succ_cons]
      rw [ih h]
      simp [onesAux]

theorem onesFrom_firstOne {m : BitMap} {a : Nat} (h : m.firstOne 0 = some a) :
    onesFrom m a = onesFrom m 0 := by
  simp only [firstOne, onesFrom, List.drop_zero] at h ⊢
  have := onesAux_head_drop h
  simpa using this

theorem firstOne_isSome_of_countOnes_pos {m : BitMap} (h : 0 < m.countOnes) :
    ∃ a, m.firstOne 0 = some a := by
  simp only [firstOne]
  cases hl : onesFrom m 0 with
  | nil =>
    exfalso
    have := length_onesFrom_zero m
    rw [hl] at this
    simp at this
    omega
  | cons a tail => exact ⟨a, rfl⟩

theorem firstOnes_ok {m : BitMap} {start count : Nat} {hbas : List Nat}
    (h : m.firstOnes start count = some hbas) :
    hbas = (onesFrom m start).take count ∧ count ≤ (onesFrom m start).length := by
  simp only [firstOnes] at h
  split at h
  · exact ⟨(Option.some.injEq _ _ ▸ h).symm, by assumption⟩
  · simp at h

theorem firstOnes_some_of_le {m : BitMap} {start count : Nat}
    (h : count ≤ (onesFrom m start).length) :
    m.firstOnes start count = some ((onesFrom m start).take count) := by
  simp [firstOnes, h]

theorem foldl_clear_length (hbas : List Nat) (m : BitMap) :
    (hbas.foldl (fun bm x => bm.setBit x false) m).length = m.length := by
  induction hbas generalizing m with
  | nil => rfl
  | cons h t ih => simp only [List.foldl_cons]; rw [ih, length_setBit]

theorem foldl_clear_testBit (hbas : List Nat) (m : BitMap) (j : Nat) :
    (hbas.foldl (fun bm x => bm.setBit x false) m).testBit j =
      if j ∈ hbas ∧ j < m.length then false else m.testBit j := by
  induction hbas generalizing m with
  | nil => simp
  | cons h t ih =>
    simp only [List.foldl_cons]
    rw [ih, length_setBit, testBit_setBit]
    by_cases hjl : j < m.length
    · by_cases hjt : j ∈ t
      · simp [List.mem_cons, hjt, hjl]
      · by_cases hjh : h = j
        · simp [List.mem_cons, hjt, hjl, hjh]
        · have hjh' : ¬ j = h := fun he => hjh he.symm
          simp [List.mem_cons, hjt, hjl, hjh, hjh']
    · simp [hjl]

theorem foldl_clear_countOnes (hbas : List Nat) (m : BitMap)
    (hnd : hbas.Nodup) (hall : ∀ x ∈ hbas, m.testBit x = true) :
    m.countOnes = (hbas.foldl (fun bm x => bm.setBit x false) m).countOnes +
      hbas.length := by
  induction hbas generalizing m with
  | nil => simp
  | cons h t ih =>
    simp only [List.foldl_cons, List.length_cons]
    have h1 : m.testBit h = true := hall h (List.mem_cons_self _ _)
    have hstep := countOnes_setBit_false m h h1
    have h2 : ∀ x ∈ t, (m.setBit h false).testBit x = true := by
      intro x hx
      rw [testBit_setBit]
      have hne : h ≠ x := by
        intro he
        subst he
        exact (List.nodup_cons.mp hnd).1 hx
      simp only [hne, false_and, if_false]
      exact hall x (List.mem_cons_of_mem _ hx)
    have := ih (m.setBit h false) (List.nodup_cons.mp hnd).2 h2
    omega

end BitMap

namespace AllocTable

theorem doAllocBatch_ok {t : AllocTable} {n : Nat} {hbas : List Nat}
    {t₁ : AllocTable} (h : t.doAllocBatch n = some (hbas, t₁)) :
    (∃ start, n ≤ (BitMap.onesFrom t.bitmap start).length ∧
        hbas = (BitMap.onesFrom t.bitmap start).take n) ∧
    t₁.bitmap = hbas.foldl (fun bm x => bm.setBit x false) t.bitmap ∧
    t₁.segment_table = t.segment_table ∧
    t₁.nblocks = t.nblocks ∧
    t₁.num_free = t.num_free ∧
    t₁.is_dirty = t.is_dirty := by
  unfold doAllocBatch at h
  rcases hna : (if t.nblocks < t.next_avail + n then t.bitmap.firstOne 0
                else some t.next_avail) with _ | na
  · rw [hna] at h; simp at h
  · rw [hna] at h
    simp only at h
    rcases hsel : (match t.bitmap.firstOnes na n with
           | some hbas => some hbas
           | none =>
             match t.bitmap.firstOne 0 with
             | none => none
             | some na2 => t.bitmap.firstOnes na2 n) with _ | hbas1
    · rw [hsel] at h; simp at h
    · rw [hsel] at h
      simp only [Option.some.injEq, Prod.mk.injEq] at h
      obtain ⟨hh, ht⟩ := h
      subst hh
      constructor
      · rcases hfo : t.bitmap.firstOnes na n with _ | hb
        · rw [hfo] at hsel
          rcases hf0 : t.bitmap.firstOne 0 with _ | na2
          · rw [hf0] at hsel; simp at hsel
          · rw [hf0] at hsel
            simp only at hsel
            have hok := BitMap.firstOnes_ok hsel
            exact ⟨na2, hok.2, hok.1⟩
        · rw [hfo] at hsel
          simp only [Option.some.injEq] at hsel
          subst hsel
          have hok := BitMap.firstOnes_ok hfo
          exact ⟨na, hok.2, hok.1⟩
      · rw [← ht]
        exact ⟨rfl, rfl, rfl, rfl, rfl⟩

theorem allocBatch_ok {t : AllocTable} {n : Nat} {hbas : List Nat}
    {t' : AllocTable} (h : t.allocBatch n = .ok (hbas, t')) :
    n ≤ t.num_free ∧
    hbas.length = n ∧
    hbas.Nodup ∧
    (∀ x ∈ hbas, t.bitmap.testBit x = true ∧ x < t.bitmap.length) ∧
    t'.bitmap = hbas.foldl (fun bm x => bm.setBit x false) t.bitmap ∧
    t'.num_free = t.num_free - n ∧
    t'.nblocks = t.nblocks ∧
    t'.is_dirty = true := by
  unfold allocBatch at h
  split at h
  · simp at h
  · rcases hdo : t.doAllocBatch n with _ | p
    · rw [hdo] at h; simp at h
    · obtain ⟨hbas2, t₁⟩ := p
      rw [hdo] at h
      simp only [Except.ok.injEq, Prod.mk.injEq] at h
      obtain ⟨hh, ht⟩ := h
      subst hh
      obtain ⟨⟨start, hlen, htake⟩, hbm, hseg, hnb, hnf, hdirty⟩ :=
        doAllocBatch_ok hdo
      have hnle : n ≤ t.num_free := by omega
      have hlentake : hbas2.length = n := by
        rw [htake, List.length_take]
        omega
      have hsub : hbas2 ⊆ BitMap.onesFrom t.bitmap start := by
        rw [htake]; exact List.take_subset _ _
      refine ⟨hnle, hlentake, ?_, ?_, ?_, ?_, ?_, ?_⟩
      · rw [htake]
        exact List.Nodup.sublist (List.take_sublist _ _)
          (BitMap.onesFrom_nodup _ _)
      · intro x hx
        exact ⟨BitMap.mem_onesFrom_true (hsub hx),
               BitMap.mem_onesFrom_lt_length (hsub hx)⟩
      · rw [← ht]; exact hbm
      · rw [← ht]
        show t₁.num_free - n = t.num_free - n
        omega
      · rw [← ht]; exact hnb
      · rw [← ht]

theorem allocBatch_succeeds {t : AllocTable} {n : Nat} (hn : 0 < n)
    (hinv : t.num_free = t.bitmap.countOnes) (hle : n ≤ t.num_free) :
    ∃ hbas t', t.allocBatch n = .ok (hbas, t') := by
  have hcnt : 0 < t.bitmap.countOnes := by omega
  obtain ⟨a, ha⟩ := BitMap.firstOne_isSome_of_countOnes_pos hcnt
  have hlen0 : n ≤ (BitMap.onesFrom t.bitmap 0).length := by
    rw [BitMap.length_onesFrom_zero]; omega
  have hlena : n ≤ (BitMap.onesFrom t.bitmap a).length := by
    rw [BitMap.onesFrom_firstOne ha]; exact hlen0
  have hdo : ∃ r, t.doAllocBatch n = some r := by
    unfold doAllocBatch
    rcases hna : (if t.nblocks < t.next_avail + n then t.bitmap.firstOne 0
                  else some t.next_avail) with _ | na
    · exfalso
      by_cases hc : t.nblocks < t.next_avail + n
      · rw [if_pos hc, ha] at hna; exact Option.noConfusion hna
      · rw [if_neg hc] at hna; exact Option.noConfusion hna
    · rcases hfo : t.bitmap.firstOnes na n with _ | hb
      · simp only [hfo, ha, BitMap.firstOnes_some_of_le hlena]
        exact ⟨_, rfl⟩
      · simp only [hfo]
        exact ⟨_, rfl⟩
  obtain ⟨⟨hbas, t₁⟩, hdo⟩ := hdo
  have hres : t.allocBatch n = .ok (hbas, { t₁ with
      segment_table := t₁.segment_table.map (fun st =>
        hbas.foldl (fun st hba =>
          updateSegAt st (hba / SEGMENT_SIZE) Segment.mark_alloc) st),
      num_free := t₁.num_free - n, is_dirty := true }) := by
    unfold allocBatch
    rw [if_neg (show ¬ t.num_free < n by omega), hdo]
  exact ⟨_, _, hres⟩

end AllocTable

/-! # Claim theorems -/

/-- C8 (counterexample): the claim says the GC worker sleeps strictly longer
when idle than when active; in the code the idle branch sleeps
`INACTIVE_GC_INTERVAL_TIME` (100 ms) and the active branch
`ACTIVE_GC_INTERVAL_TIME` (5 s), so the idle sleep is not greater. -/
theorem C8_counterexample :
    ¬ (gcSleepDurationMs false > gcSleepDurationMs true) := by decide

/-- C8 (amended): at the end of a GC iteration the worker sleeps
`ACTIVE_GC_INTERVAL_TIME` (5 s) when it was active and
`INACTIVE_GC_INTERVAL_TIME` (100 ms) when it was idle, so the active-case
sleep is strictly greater than the idle-case sleep. -/
theorem C8_gc_sleep_active_longer :
    gcSleepDurationMs true = ACTIVE_GC_INTERVAL_TIME_MS ∧
    gcSleepDurationMs false = INACTIVE_GC_INTERVAL_TIME_MS ∧
    gcSleepDurationMs false < gcSleepDurationMs true := by decide

theorem loopScanGo_segment_id_ne (bm : BitMap) (table : List Segment)
    (thr : ℚ) (lc : Nat) :
    ∀ fuel cursor v, loopScanGo bm table thr lc fuel cursor = some v →
      v.segment_id ≠ lc := by
  intro fuel
  induction fuel with
  | zero => intro cursor v h; simp [loopScanGo] at h
  | succ f ih =>
    intro cursor v h
    simp only [loopScanGo] at h
    by_cases h1 : (cursor + 1) % table.length = lc
    · rw [if_pos h1] at h
      exact absurd h (by simp)
    · rw [if_neg h1] at h
      by_cases h2 : ((table.getD ((cursor + 1) % table.length)
          (Segment.new 0 0)).num_invalid_blocks : ℚ) /
          ((table.getD ((cursor + 1) % table.length)
            (Segment.new 0 0)).nblocks : ℚ) > thr
      · rw [if_pos h2] at h
        simp only [Option.some.injEq] at h
        rw [← h]
        exact h1
      · rw [if_neg h2] at h
        exact ih _ v h

/-- C10: `LoopScanVictimPolicy::pick_victim` starts probing at cursor+1 and
returns `none` as soon as the probe wraps back to the stored cursor, so it
never examines the segment at the stored cursor index; in particular, on a
table with exactly one segment it returns `none` for every threshold. -/
theorem C10_loop_scan_never_probes_cursor (bm : BitMap) (seg : Segment)
    (table : List Segment) (thr : ℚ) (c : Nat) (v : Victim) :
    (c < 1 → loopScanPickVictim bm [seg] thr c = none) ∧
    (loopScanPickVictim bm table thr c = some v → v.segment_id ≠ c) := by
  constructor
  · intro hc
    have hc0 : c = 0 := by omega
    subst hc0
    simp [loopScanPickVictim, loopScanGo]
  · intro h
    exact loopScanGo_segment_id_ne bm table thr c table.length c v h

/-- C10 (witness): a one-segment table whose single segment has
invalid-block fraction 1 (far above the threshold 0.1) still yields no
victim; and the victim picked from a two-segment table starting at cursor 0
is not segment 0. -/
theorem C10_loop_scan_never_probes_cursor_witness :
    loopScanPickVictim [] [⟨0, 0, 0, 1⟩] (1 / 10 : ℚ) 0 = none ∧
    (⟨1, [1024]⟩ : Victim).segment_id ≠ 0 := by
  constructor
  · exact (C10_loop_scan_never_probes_cursor [] ⟨0, 0, 0, 1⟩ [] (1 / 10) 0
      ⟨0, []⟩).1 (by omega)
  · refine (C10_loop_scan_never_probes_cursor [] ⟨0, 0, 0, 1⟩
      [⟨0, 1, 1, 1⟩, ⟨1, 0, 0, 1⟩] (1 / 10) 0 ⟨1, [1024]⟩).2 ?_
    show loopScanGo [] [⟨0, 1, 1, 1⟩, ⟨1, 0, 0, 1⟩] (1 / 10) 0 2 0 =
      some ⟨1, [1024]⟩
    simp only [loopScanGo]
    norm_num [Segment.num_invalid_blocks, Segment.find_all_allocated_blocks,
      BitMap.testBit, SEGMENT_SIZE]
    decide

/-- C2 (counterexample): with 4 total blocks and 0 free, `alloc_batch(1)`
(0 < 1 ≤ total) does not block until blocks are freed: it returns the
`OutOfDisk` error at once. -/
theorem C2_counterexample :
    AllocTable.allocBatch ⟨[false, false, false, false], none, 0, 4, false, 0⟩ 1 =
      .error .OutOfDisk := rfl

/-- C2 (amended): when fewer than `n` blocks are free, `alloc_batch(n)`
fails immediately with `OutOfDisk` (the condition-variable wait after the
early return is dead code); when at least `n` blocks are free (with
`num_free` equal to the bitmap popcount), it succeeds and returns exactly
`n` distinct HBAs, each free before the call and cleared after it, with
`num_free` decreased by `n`. -/
theorem C2_alloc_batch_error_policy (t : AllocTable) (n : Nat) (h0 : 0 < n) :
    (t.num_free < n → t.allocBatch n = .error .OutOfDisk) ∧
    (t.num_free = t.bitmap.countOnes → n ≤ t.num_free →
      ∃ hbas t', t.allocBatch n = .ok (hbas, t') ∧ hbas.length = n ∧
        hbas.Nodup ∧
        (∀ x ∈ hbas, t.bitmap.testBit x = true ∧ t'.bitmap.testBit x = false) ∧
        t'.num_free = t.num_free - n) := by
  constructor
  · intro h
    unfold AllocTable.allocBatch
    rw [if_pos h]
  · intro hinv hle
    obtain ⟨hbas, t', hok⟩ := AllocTable.allocBatch_succeeds h0 hinv hle
    obtain ⟨_, hlen, hnd, hmem, hbm, hnf, _, _⟩ := AllocTable.allocBatch_ok hok
    refine ⟨hbas, t', hok, hlen, hnd, ?_, hnf⟩
    intro x hx
    refine ⟨(hmem x hx).1, ?_⟩
    rw [hbm, BitMap.foldl_clear_testBit]
    simp [hx, (hmem x hx).2]

/-- C2 (witness): with 0 of 2 blocks free the call errors with `OutOfDisk`;
with 2 of 2 free, `alloc_batch(1)` succeeds with one fresh cleared HBA. -/
theorem C2_alloc_batch_error_policy_witness :
    AllocTable.allocBatch ⟨[false, false], none, 0, 2, false, 0⟩ 1 =
      .error .OutOfDisk ∧
    (∃ hbas t', AllocTable.allocBatch ⟨[true, true], none, 0, 2, false, 2⟩ 1 =
        .ok (hbas, t') ∧ hbas.length = 1 ∧ hbas.Nodup ∧
        (∀ x ∈ hbas,
          BitMap.testBit [true, true] x = true ∧ t'.bitmap.testBit x = false) ∧
        t'.num_free = 2 - 1) :=
  ⟨(C2_alloc_batch_error_policy ⟨[false, false], none, 0, 2, false, 0⟩ 1
      (by decide)).1 (by decide),
   (C2_alloc_batch_error_policy ⟨[true, true], none, 0, 2, false, 2⟩ 1
      (by decide)).2 (by decide) (by decide)⟩

theorem foldl_setBit_true_out_of_range (l : List Nat)
    (h : ∀ i ∈ l, 1 ≤ i) :
    List.foldl (fun bm i => BitMap.setBit bm i true) [true] l = [true] := by
  induction l with
  | nil => rfl
  | cons x xs ih =>
    have hx : 1 ≤ x := h x (List.mem_cons_self _ _)
    obtain ⟨y, rfl⟩ : ∃ y, x = y + 1 := ⟨x - 1, by omega⟩
    simp only [List.foldl_cons]
    have hpass : BitMap.setBit [true] (y + 1) true = [true] := rfl
    rw [hpass]
    exact ih (fun i hi => h i (List.mem_cons_of_mem _ hi))

/-- C3 (counterexample): starting from states satisfying
`num_free = popcount(bitmap)`, the quiescent states right after
`AllocTable::alloc`, after `AllocTable::migrate_batch`, and after
`AllocTable::clear_segment` violate it: `alloc` and `migrate_batch` clear
bits without touching `num_free`, and `clear_segment` sets a whole
segment's bits free while adding only `discard_count`. -/
theorem C3_counterexample :
    validityInv ⟨[true, true], none, 0, 2, false, 2⟩ ∧
    AllocTable.alloc ⟨[true, true], none, 0, 2, false, 2⟩ =
      some (0, ⟨[false, true], none, 1, 2, false, 2⟩) ∧
    ¬ validityInv ⟨[false, true], none, 1, 2, false, 2⟩ ∧
    AllocTable.migrateBatch ⟨[true, true], none, 0, 2, false, 2⟩ [0] =
      ⟨[false, true], none, 0, 2, false, 2⟩ ∧
    ¬ validityInv ⟨[false, true], none, 0, 2, false, 2⟩ ∧
    validityInv ⟨[false], none, 0, 1, false, 0⟩ ∧
    AllocTable.clearSegment ⟨[false], none, 0, 1, false, 0⟩ 0 0 =
      ⟨[true], none, 0, 1, false, 0⟩ ∧
    ¬ validityInv ⟨[true], none, 0, 1, false, 0⟩ := by
  refine ⟨by decide, by decide, by decide, by decide, by decide, by decide,
    ?_, by decide⟩
  show AllocTable.clearSegment ⟨[false], none, 0, 1, false, 0⟩ 0 0 =
    ⟨[true], none, 0, 1, false, 0⟩
  simp only [AllocTable.clearSegment]
  norm_num [SEGMENT_SIZE]
  show List.foldl (fun bm i => BitMap.setBit bm i true) [false]
    (List.range 1024) = [true]
  rw [List.range_succ_eq_map]
  simp only [List.foldl_cons]
  show List.foldl (fun bm i => BitMap.setBit bm i true) [true]
    (List.map Nat.succ (List.range 1023)) = [true]
  apply foldl_setBit_true_out_of_range
  intro i hi
  simp only [List.mem_map] at hi
  obtain ⟨j, _, rfl⟩ := hi
  omega

theorem updateStep_countOnes (diff : List (Nat × AllocDiff)) :
    ∀ (m : BitMap) (c : Nat),
      (diff.map Prod.fst).Nodup →
      (∀ kv ∈ diff, kv.2 = AllocDiff.Dealloc →
        kv.1 < m.length ∧ m.testBit kv.1 = false) →
      (diff.foldl updateStep (m, c)).1.countOnes + c =
        m.countOnes + (diff.foldl updateStep (m, c)).2 := by
  induction diff with
  | nil => intro m c _ _; simp
  | cons kv rest ih =>
    intro m c hnd hall
    rcases kv with ⟨k, d⟩
    simp only [List.map_cons] at hnd
    have hnd' := List.nodup_cons.mp hnd
    cases d with
    | Dealloc =>
      have hk := hall (k, .Dealloc) (List.mem_cons_self _ _) rfl
      have hstep : updateStep (m, c) (k, AllocDiff.Dealloc) =
          (m.setBit k true, c + 1) := rfl
      rw [List.foldl_cons, hstep]
      have hcnt := BitMap.countOnes_setBit_true m k hk.2 hk.1
      have hrest : ∀ kv ∈ rest, kv.2 = AllocDiff.Dealloc →
          kv.1 < (m.setBit k true).length ∧
          (m.setBit k true).testBit kv.1 = false := by
        intro kv2 hkv2 hd2
        have h2 := hall kv2 (List.mem_cons_of_mem _ hkv2) hd2
        refine ⟨by rw [BitMap.length_setBit]; exact h2.1, ?_⟩
        rw [BitMap.testBit_setBit]
        have hkne : ¬ k = kv2.1 := by
          intro he
          exact hnd'.1 (he ▸ List.mem_map_of_mem Prod.fst hkv2)
        simp only [hkne, false_and, if_false]
        exact h2.2
      have hih := ih (m.setBit k true) (c + 1) hnd'.2 hrest
      omega
    | Alloc =>
      have hstep : updateStep (m, c) (k, AllocDiff.Alloc) = (m, c) := rfl
      rw [List.foldl_cons, hstep]
      exact ih m c hnd'.2
        (fun kv2 hkv2 hd2 => hall kv2 (List.mem_cons_of_mem _ hkv2) hd2)
    | Invalid =>
      have hstep : updateStep (m, c) (k, AllocDiff.Invalid) = (m, c) := rfl
      rw [List.foldl_cons, hstep]
      exact ih m c hnd'.2
        (fun kv2 hkv2 hd2 => hall kv2 (List.mem_cons_of_mem _ hkv2) hd2)

/-- C3 (amended): the invariant `num_free = popcount(bitmap)` is preserved
by `alloc_batch` (on success), by `set_deallocated` applied to an in-range
currently-allocated block, and by `update_alloc_table` applied to a per-TX
diff whose `Dealloc` entries are distinct in-range currently-allocated
blocks.  It is not preserved by `alloc`, `migrate_batch` or `clear_segment`
individually (see the counterexample): those adjust the bitmap and
`num_free` asymmetrically, and only the full GC sequence restores the
invariant. -/
theorem C3_num_free_eq_popcount_amended (t : AllocTable) (n h : Nat)
    (hbas : List Nat) (t' : AllocTable) (diff : List (Nat × AllocDiff)) :
    (validityInv t → t.allocBatch n = .ok (hbas, t') → validityInv t') ∧
    (validityInv t → h < t.bitmap.length → t.bitmap.testBit h = false →
      validityInv (t.set_deallocated h)) ∧
    (validityInv t → (diff.map Prod.fst).Nodup →
      (∀ kv ∈ diff, kv.2 = AllocDiff.Dealloc →
        kv.1 < t.bitmap.length ∧ t.bitmap.testBit kv.1 = false) →
      validityInv (t.updateAllocTable diff)) := by
  refine ⟨?_, ?_, ?_⟩
  · intro hinv hok
    obtain ⟨hle, hlen, hnd, hmem, hbm, hnf, _, _⟩ := AllocTable.allocBatch_ok hok
    have hcnt := BitMap.foldl_clear_countOnes hbas t.bitmap hnd
      (fun x hx => (hmem x hx).1)
    unfold validityInv at hinv ⊢
    rw [hnf, hbm]
    omega
  · intro hinv hlt hbit
    unfold validityInv at hinv ⊢
    unfold AllocTable.set_deallocated
    simp only
    rw [BitMap.countOnes_setBit_true t.bitmap h hbit hlt]
    omega
  · intro hinv hnd hall
    unfold validityInv at hinv ⊢
    unfold AllocTable.updateAllocTable
    simp only
    have := updateStep_countOnes diff t.bitmap 0 hnd hall
    omega

/-- C3 (witness): concrete instances exercising all three amended
preservation statements. -/
theorem C3_num_free_eq_popcount_amended_witness :
    validityInv ⟨[false, true], none, 1, 2, true, 1⟩ ∧
    validityInv (AllocTable.set_deallocated ⟨[false, true], none, 0, 2, false, 1⟩ 0) ∧
    validityInv (AllocTable.updateAllocTable ⟨[false, true], none, 0, 2, false, 1⟩
      [(0, AllocDiff.Dealloc)]) :=
  ⟨(C3_num_free_eq_popcount_amended ⟨[true, true], none, 0, 2, false, 2⟩ 1 0 [0]
      ⟨[false, true], none, 1, 2, true, 1⟩ []).1 (by decide) (by decide),
   (C3_num_free_eq_popcount_amended ⟨[false, true], none, 0, 2, false, 1⟩ 1 0 []
      ⟨[], none, 0, 0, false, 0⟩ []).2.1 (by decide) (by decide) (by decide),
   (C3_num_free_eq_popcount_amended ⟨[false, true], none, 0, 2, false, 1⟩ 1 0 []
      ⟨[], none, 0, 0, false, 0⟩ [(0, AllocDiff.Dealloc)]).2.2 (by decide)
      (by decide) (by decide)⟩

theorem BitMap.lt_length_of_testBit {m : BitMap} {i : Nat}
    (h : m.testBit i = true) : i < m.length := by
  induction m generalizing i with
  | nil => simp [BitMap.testBit] at h
  | cons x rest ih =>
    cases i with
    | zero => simp
    | succ n =>
      simp only [BitMap.testBit] at h
      have := ih h
      simp only [List.length_cons]
      omega

theorem lookupDiff_insertDiff_self (l : List (Nat × AllocDiff)) (k : Nat)
    (v : AllocDiff) : lookupDiff (insertDiff l k v) k = some v := by
  induction l with
  | nil => simp [insertDiff, lookupDiff]
  | cons kv rest ih =>
    rcases kv with ⟨k', v'⟩
    simp only [insertDiff]
    by_cases h1 : k < k'
    · simp [h1, lookupDiff]
    · by_cases h2 : k = k'
      · simp [h1, h2, lookupDiff]
      · simp only [h1, h2, if_false]
        simp only [lookupDiff, h2, if_false]
        exact ih

/-- C4: for a record dropped by a major compaction, a migration, or the
memtable-drop callback, carrying HBA `h`: when the dealloc table has `h`
flagged, the flag is cleared and no deallocation is performed (the per-TX
diff table and the validity table are untouched); otherwise `h` is
deallocated exactly once (one `Dealloc` diff for `h`, respectively one
`set_deallocated` on the validity table), with the flag untouched. -/
theorem C4_double_free_prevention (tx : TxType) (st : DropState) (h : Nat)
    (table : AllocTable)
    (htx : tx = TxType.migration ∨ ∃ k, tx = TxType.compaction (k + 1)) :
    (st.dealloc_table.has_deallocated h = true →
      onDropRecord tx st h =
        some { st with dealloc_table := st.dealloc_table.finish_deallocated h } ∧
      (st.dealloc_table.finish_deallocated h).has_deallocated h = false ∧
      onDropRecordInMemtable st.dealloc_table table h =
        (st.dealloc_table.finish_deallocated h, table)) ∧
    (st.dealloc_table.has_deallocated h = false →
      onDropRecord tx st h =
        some { st with diff_table := insertDiff st.diff_table h AllocDiff.Dealloc } ∧
      lookupDiff (insertDiff st.diff_table h AllocDiff.Dealloc) h =
        some AllocDiff.Dealloc ∧
      onDropRecordInMemtable st.dealloc_table table h =
        (st.dealloc_table, table.set_deallocated h)) := by
  have hdrop : onDropRecord tx st h =
      (if st.dealloc_table.has_deallocated h then
        some { st with dealloc_table := st.dealloc_table.finish_deallocated h }
      else
        some { st with diff_table := insertDiff st.diff_table h AllocDiff.Dealloc }) := by
    rcases htx with h1 | ⟨k, h1⟩ <;> subst h1 <;> rfl
  constructor
  · intro hflag
    refine ⟨by rw [hdrop, if_pos hflag], ?_, ?_⟩
    · have hlt : h < st.dealloc_table.bits.length :=
        BitMap.lt_length_of_testBit hflag
      show (st.dealloc_table.bits.setBit h false).testBit h = false
      rw [BitMap.testBit_setBit]
      simp [hlt]
    · unfold onDropRecordInMemtable
      rw [if_pos hflag]
  · intro hflag
    refine ⟨by rw [hdrop, if_neg (by simp [hflag])], ?_, ?_⟩
    · exact lookupDiff_insertDiff_self _ _ _
    · unfold onDropRecordInMemtable
      rw [if_neg (by simp [hflag])]

/-- C4 (witness): a flagged HBA is skipped with the flag cleared; an
unflagged HBA is deallocated once. -/
theorem C4_double_free_prevention_witness :
    onDropRecord TxType.migration ⟨[], ⟨[true]⟩⟩ 0 =
      some ⟨[], ⟨[false]⟩⟩ ∧
    onDropRecord TxType.migration ⟨[], ⟨[false]⟩⟩ 0 =
      some ⟨[(0, AllocDiff.Dealloc)], ⟨[false]⟩⟩ :=
  ⟨((C4_double_free_prevention TxType.migration ⟨[], ⟨[true]⟩⟩ 0
      ⟨[true], none, 0, 1, false, 0⟩ (Or.inl rfl)).1 (by decide)).1,
   ((C4_double_free_prevention TxType.migration ⟨[], ⟨[false]⟩⟩ 0
      ⟨[true], none, 0, 1, false, 0⟩ (Or.inl rfl)).2 (by decide)).1⟩

theorem applyDiffBytes_eq_parse : ∀ (n : Nat) (bytes : List Nat),
    bytes.length ≤ n → ∀ bm,
    applyDiffBytes bm bytes = (parseRecords bytes).foldl applyRecord bm := by
  intro n
  induction n with
  | zero =>
    intro bytes hlen bm
    have h9 : ¬ 9 ≤ bytes.length := by omega
    rw [applyDiffBytes, parseRecords, if_neg h9, if_neg h9]
    rfl
  | succ k ih =>
    intro bytes hlen bm
    by_cases h9 : 9 ≤ bytes.length
    · rw [applyDiffBytes, parseRecords, if_pos h9, if_pos h9]
      have hd1 : (bytes.drop 1).length ≤ k := by
        rw [List.length_drop]; omega
      have hd9 : (bytes.drop 9).length ≤ k := by
        rw [List.length_drop]; omega
      cases hd : AllocDiff.fromByte (bytes.headD 0) with
      | Invalid =>
        simp only
        exact ih (bytes.drop 1) hd1 bm
      | Alloc =>
        simp only [List.foldl_cons]
        exact ih (bytes.drop 9) hd9 _
      | Dealloc =>
        simp only [List.foldl_cons]
        exact ih (bytes.drop 9) hd9 _
    · rw [applyDiffBytes, parseRecords, if_neg h9, if_neg h9]
      rfl

theorem foldl_applyDiffBytes_eq_parse (logs : List (Nat × List Nat)) :
    ∀ bm : BitMap,
      logs.foldl (fun b log => applyDiffBytes b log.2) bm =
      ((logs.map (fun log => parseRecords log.2)).flatten).foldl applyRecord bm := by
  induction logs with
  | nil => intro bm; rfl
  | cons lg rest ih =>
    intro bm
    simp only [List.foldl_cons, List.map_cons, List.flatten_cons]
    rw [List.foldl_append]
    rw [applyDiffBytes_eq_parse lg.2.length lg.2 le_rfl bm]
    exact ih _

/-- C6: `AllocTable::recover` coincides with the spec's declarative
description: seed the bitmap from the latest `BVT` log (all-free on
`NotFound`), apply the records of every `BAL` diff log in ascending log-id
order (an `Alloc` record clears the HBA's bit, a `Dealloc` record sets it,
any other tag byte parses as `Invalid` and is skipped), and finally derive
`next_avail` as the first free bit and `num_free` as the popcount of the
resulting bitmap. -/
theorem C6_recover_matches_spec (nblocks : Nat) (enable_gc : Bool)
    (store : StoreData) :
    AllocTable.recover nblocks enable_gc store =
      recoverSpec nblocks enable_gc store ∧
    (AllocTable.recover nblocks enable_gc store).num_free =
      (AllocTable.recover nblocks enable_gc store).bitmap.countOnes ∧
    (AllocTable.recover nblocks enable_gc store).next_avail =
      ((AllocTable.recover nblocks enable_gc store).bitmap.firstOne 0).getD 0 := by
  refine ⟨?_, rfl, rfl⟩
  unfold AllocTable.recover recoverSpec
  simp only [foldl_applyDiffBytes_eq_parse]

theorem DataBuf.getRange_eq_nil {d : DataBuf} {lo n : Nat}
    (h : ∀ i, i < n → d.get (lo + i) = none) : d.getRange lo n = [] := by
  unfold DataBuf.getRange
  rw [List.filter_eq_nil_iff]
  intro kv hkv
  intro hp
  simp only [decide_eq_true_eq] at hp
  have hi : kv.1 = lo + (kv.1 - lo) := by omega
  have hnone := h (kv.1 - lo) (by omega)
  rw [← hi] at hnone
  unfold DataBuf.get at hnone
  have hsome : (d.entries.find? (fun x => x.1 = kv.1)).isSome := by
    rw [List.find?_isSome]
    exact ⟨kv, hkv, by simp⟩
  rw [Option.map_eq_none'] at hnone
  rw [hnone] at hsome
  simp at hsome

/-- C9: a read or readv whose LBAs are all within capacity but were never
written (absent from the data buffer and the forward index) succeeds: the
inner `NotFound` is swallowed and nothing is written to the caller's
buffers (their contents are unspecified). -/
theorem C9_empty_reads_succeed (s : State) (lba n : Nat)
    (hcap : lba + n ≤ s.block_validity_table.nblocks) (hn : 0 < n)
    (habs : ∀ i, i < n → s.data_buf.get (lba + i) = none ∧
      assocGet s.logical_block_table (lba + i) = none) :
    s.diskReadv lba n = .ok [] ∧ s.diskRead lba = .ok none := by
  have hgr : s.data_buf.getRange lba n = [] :=
    DataBuf.getRange_eq_nil (fun i hi => (habs i hi).1)
  have hmulti : s.readMultiBlocks lba n = .error .NotFound := by
    unfold State.readMultiBlocks
    simp only [hgr, List.map_nil]
    have hfil : (((List.range n).map (lba + ·)).filter
        (fun l => ¬ (([] : List Nat).contains l))) =
        (List.range n).map (lba + ·) :=
      List.filter_eq_self.mpr (fun a _ => by simp)
    rw [hfil]
    have hne : ¬ ((List.range n).map (lba + ·)).isEmpty = true := by
      simp [List.isEmpty_iff, List.map_eq_nil_iff, List.range_eq_nil]
      omega
    rw [if_neg hne]
    have hfound : ((List.range n).map (lba + ·)).filterMap
        (fun l => (assocGet s.logical_block_table l).map (fun v => (l, v))) =
        [] := by
      rw [List.filterMap_eq_nil_iff]
      intro a ha
      simp only [List.mem_map, List.mem_range] at ha
      obtain ⟨i, hi, rfl⟩ := ha
      rw [(habs i hi).2]
      rfl
    rw [hfound]
    rfl
  constructor
  · unfold State.diskReadv
    rw [if_pos (by simp [State.checkRwArgs]; omega)]
    unfold State.readv
    rw [hmulti]
    simp [hgr]
  · unfold State.diskRead
    rw [if_pos (by simp [State.checkRwArgs]; omega)]
    unfold State.readSingle State.readOneBlock
    have h0 := habs 0 hn
    rw [Nat.add_zero] at h0
    rw [h0.1, h0.2]
    rfl

/-- C9 (witness): on a fresh two-block disk, reading never-written LBAs
succeeds both through `readv` and through the single-block `read`. -/
theorem C9_empty_reads_succeed_witness :
    State.diskReadv ⟨⟨false, true⟩, ⟨[], 4⟩, [], [], ⟨[false, false]⟩,
      ⟨[true, true], none, 0, 2, false, 2⟩, ⟨[], [], []⟩,
      ⟨⟨[], [], [], 0⟩, ⟨[], [], [], 0⟩⟩, 0, false, 0⟩ 0 2 = .ok [] ∧
    State.diskRead ⟨⟨false, true⟩, ⟨[], 4⟩, [], [], ⟨[false, false]⟩,
      ⟨[true, true], none, 0, 2, false, 2⟩, ⟨[], [], []⟩,
      ⟨⟨[], [], [], 0⟩, ⟨[], [], [], 0⟩⟩, 0, false, 0⟩ 0 = .ok none :=
  C9_empty_reads_succeed ⟨⟨false, true⟩, ⟨[], 4⟩, [], [], ⟨[false, false]⟩,
      ⟨[true, true], none, 0, 2, false, 2⟩, ⟨[], [], []⟩,
      ⟨⟨[], [], [], 0⟩, ⟨[], [], [], 0⟩⟩, 0, false, 0⟩ 0 2
    (by decide) (by decide) (by decide)

theorem writeBatches_compaction_count :
    ∀ (runs : List (List Nat)) (s : State) (blocks : List (Nat × Block))
      {s' : State} {recs : List (Nat × RecordValue)},
      writeBatches s blocks runs = .ok (s', recs) →
      s'.compaction_count = s.compaction_count := by
  intro runs
  induction runs with
  | nil =>
    intro s blocks s' recs h
    simp only [writeBatches, Except.ok.injEq, Prod.mk.injEq] at h
    rw [← h.1]
  | cons run rest ih =>
    intro s blocks s' recs h
    simp only [writeBatches] at h
    rcases hw : s.user_data_disk.writeRun (run.headD 0)
        (encryptBatch s.key_counter ((blocks.take run.length).zip run)).1
      with _ | d'
    · rw [hw] at h; simp at h
    · rw [hw] at h
      simp only at h
      rcases hrec : writeBatches
          { s with user_data_disk := d',
                   key_counter :=
                     (encryptBatch s.key_counter
                       ((blocks.take run.length).zip run)).2.2 }
          (blocks.drop run.length) rest with e | p
      · rw [hrec] at h; simp at h
      · obtain ⟨s₁, recs₁⟩ := p
        rw [hrec] at h
        simp only [Except.ok.injEq, Prod.mk.injEq] at h
        have := ih _ _ hrec
        rw [← h.1]
        exact this

theorem writeBlocks_compaction_count (s : State) {s' : State}
    {recs : List (Nat × RecordValue)}
    (h : s.writeBlocksFromDataBuf = .ok (s', recs)) :
    s'.compaction_count = s.compaction_count := by
  simp only [State.writeBlocksFromDataBuf] at h
  split at h
  · simp only [Except.ok.injEq, Prod.mk.injEq] at h
    rw [← h.1]
  · rcases hab : s.block_validity_table.allocBatch s.data_buf.allBlocks.length
      with e | p
    · rw [hab] at h; simp at h
    · obtain ⟨hbas, table'⟩ := p
      rw [hab] at h
      simp only at h
      exact writeBatches_compaction_count (groupRuns hbas)
        { s with block_validity_table := table' } s.data_buf.allBlocks h

/-- C7: flush error policy.  When the first write attempt fails with
`OutOfDisk`, exactly one manual LSM compaction is requested and the write
is retried exactly once: a second failure is propagated, and a successful
retry completes the flush with the compaction counter advanced by exactly
one.  A first failure with any other error is propagated as is, without a
compaction or retry. -/
theorem C7_flush_error_policy (s : State) (e : Errno)
    (hfirst : s.writeBlocksFromDataBuf = .error e) :
    (e = .OutOfDisk →
      (∀ e', s.manualCompaction.writeBlocksFromDataBuf = .error e' →
        s.flushDataBuf = .error e') ∧
      (∀ s' recs, s.manualCompaction.writeBlocksFromDataBuf = .ok (s', recs) →
        s.flushDataBuf = .ok (s'.finishFlush recs) ∧
        s'.compaction_count = s.compaction_count + 1)) ∧
    (e ≠ .OutOfDisk → s.flushDataBuf = .error e) := by
  constructor
  · intro he
    subst he
    constructor
    · intro e' h2
      simp [State.flushDataBuf, hfirst, h2]
    · intro s' recs h2
      refine ⟨by simp [State.flushDataBuf, hfirst, h2], ?_⟩
      rw [writeBlocks_compaction_count _ h2]
      rfl
  · intro hne
    simp [State.flushDataBuf, hfirst, hne]

/-- C7 (witness): with one buffered block and no free HBA, the flush fails
with `OutOfDisk` after the compaction retry; with one free HBA but a bad
disk block, the first attempt's `IoFailed` is propagated without retry. -/
theorem C7_flush_error_policy_witness :
    State.flushDataBuf ⟨⟨false, true⟩, ⟨[(0, [1])], 4⟩, [], [], ⟨[false]⟩,
      ⟨[false], none, 0, 1, false, 0⟩, ⟨[], [], []⟩,
      ⟨⟨[], [], [], 0⟩, ⟨[], [], [], 0⟩⟩, 0, false, 0⟩ = .error .OutOfDisk ∧
    State.flushDataBuf ⟨⟨false, true⟩, ⟨[(0, [1])], 4⟩, [], [], ⟨[false]⟩,
      ⟨[true], none, 0, 1, false, 1⟩, ⟨[], [0], []⟩,
      ⟨⟨[], [], [], 0⟩, ⟨[], [], [], 0⟩⟩, 0, false, 0⟩ = .error .IoFailed :=
  ⟨((C7_flush_error_policy ⟨⟨false, true⟩, ⟨[(0, [1])], 4⟩, [], [], ⟨[false]⟩,
      ⟨[false], none, 0, 1, false, 0⟩, ⟨[], [], []⟩,
      ⟨⟨[], [], [], 0⟩, ⟨[], [], [], 0⟩⟩, 0, false, 0⟩ .OutOfDisk
      (by decide)).1 rfl).1 .OutOfDisk (by decide),
   (C7_flush_error_policy ⟨⟨false, true⟩, ⟨[(0, [1])], 4⟩, [], [], ⟨[false]⟩,
      ⟨[true], none, 0, 1, false, 1⟩, ⟨[], [0], []⟩,
      ⟨⟨[], [], [], 0⟩, ⟨[], [], [], 0⟩⟩, 0, false, 0⟩ .IoFailed
      (by decide)).2 (by decide)⟩

theorem DataBuf.clearBuf_of_empty {d : DataBuf} (h : d.entries = []) :
    d.clearBuf = d := by
  cases d with
  | mk e c =>
    simp only at h
    simp [DataBuf.clearBuf, h]

theorem TxLogStore.syncStore_of_synced {st : TxLogStore}
    (h : st.durable = st.data) : st.syncStore = st := by
  cases st with
  | mk a b =>
    simp only at h
    simp [TxLogStore.syncStore, h]

theorem Disk.flushDisk_of_flushed {d : Disk} (h : d.durable = d.data) :
    d.flushDisk = d := by
  cases d with
  | mk a bad dur =>
    simp only at h
    simp [Disk.flushDisk, h]

theorem State.update_self {s : State} (h1 : s.data_buf.entries = [])
    (h2 : s.is_active = true) :
    { s with is_active := true, data_buf := s.data_buf.clearBuf } = s := by
  cases s with
  | mk c db lbt rit dt bvt d st kc ia cc =>
    simp only at h1 h2
    simp [DataBuf.clearBuf_of_empty h1, h2]

theorem AllocTable.doCompaction_dirty_false (t : AllocTable)
    (store : TxLogStore) : (t.doCompaction store).1.is_dirty = false := by
  unfold AllocTable.doCompaction
  split
  · assumption
  · rfl

theorem flushDataBuf_ok_shape (s : State) {s1 : State}
    (h : s.flushDataBuf = .ok s1) :
    s1.data_buf.entries = [] ∧ s1.is_active = true := by
  unfold State.flushDataBuf at h
  rcases hw : s.writeBlocksFromDataBuf with e | p
  · rw [hw] at h
    simp only at h
    split at h
    · rcases hw2 : s.manualCompaction.writeBlocksFromDataBuf with e2 | p2
      · rw [hw2] at h; simp at h
      · obtain ⟨x, recs⟩ := p2
        rw [hw2] at h
        simp only [Except.ok.injEq] at h
        rw [← h]
        exact ⟨rfl, rfl⟩
    · simp at h
  · obtain ⟨x, recs⟩ := p
    rw [hw] at h
    simp only [Except.ok.injEq] at h
    rw [← h]
    exact ⟨rfl, rfl⟩

/-- C5: sync is idempotent.  A successful `sync` leaves the data buffer
empty, the validity table clean, and the log store and the user-data disk
with their durable contents equal to the volatile ones; a second `sync`
performs no allocation, no disk write, no index insertion and no
validity-table compaction, and returns the state unchanged. -/
theorem C5_sync_idempotent (s s' : State) (h : State.sync s = .ok s') :
    State.sync s' = .ok s' := by
  have hdecomp : ∃ s1, s.flushDataBuf = .ok s1 ∧
      s' = { s1 with
        block_validity_table :=
          (s1.block_validity_table.doCompaction s1.tx_log_store).1,
        tx_log_store :=
          (s1.block_validity_table.doCompaction s1.tx_log_store).2.syncStore,
        user_data_disk := s1.user_data_disk.flushDisk } := by
    unfold State.sync at h
    rcases hf : s.flushDataBuf with e | s1
    · rw [hf] at h; simp at h
    · rw [hf] at h
      simp only [Except.ok.injEq] at h
      exact ⟨s1, rfl, h.symm⟩
  obtain ⟨s1, hf, hs'⟩ := hdecomp
  have hshape := flushDataBuf_ok_shape s hf
  have hP1a : s'.data_buf.entries = [] := by rw [hs']; exact hshape.1
  have hP1b : s'.is_active = true := by rw [hs']; exact hshape.2
  have hP2 : s'.block_validity_table.is_dirty = false := by
    rw [hs']
    exact AllocTable.doCompaction_dirty_false _ _
  have hP3 : s'.tx_log_store.durable = s'.tx_log_store.data := by
    rw [hs']; rfl
  have hP4 : s'.user_data_disk.durable = s'.user_data_disk.data := by
    rw [hs']; rfl
  have hwb : s'.writeBlocksFromDataBuf = .ok (s', []) := by
    simp [State.writeBlocksFromDataBuf, DataBuf.allBlocks, hP1a]
  have hff : s'.finishFlush [] = s' := by
    unfold State.finishFlush State.insertRecords
    simp only [List.foldl_nil]
    exact State.update_self hP1a hP1b
  have hflush' : s'.flushDataBuf = .ok s' := by
    simp only [State.flushDataBuf, hwb, hff]
  have hdc : s'.block_validity_table.doCompaction s'.tx_log_store =
      (s'.block_validity_table, s'.tx_log_store) := by
    unfold AllocTable.doCompaction
    rw [if_pos hP2]
  unfold State.sync
  rw [hflush']
  simp only [hdc, TxLogStore.syncStore_of_synced hP3,
    Disk.flushDisk_of_flushed hP4]

/-- C5 (witness): a concrete synced state is a fixed point of `sync`. -/
theorem C5_sync_idempotent_witness :
    State.sync ⟨⟨false, true⟩, ⟨[], 4⟩, [(0, ⟨0, 5, 0⟩)], [], ⟨[false]⟩,
      ⟨[false], none, 0, 1, false, 0⟩, ⟨[(0, [7])], [], [(0, [7])]⟩,
      ⟨⟨[], [], [], 0⟩, ⟨[], [], [], 0⟩⟩, 1, true, 0⟩ =
    .ok ⟨⟨false, true⟩, ⟨[], 4⟩, [(0, ⟨0, 5, 0⟩)], [], ⟨[false]⟩,
      ⟨[false], none, 0, 1, false, 0⟩, ⟨[(0, [7])], [], [(0, [7])]⟩,
      ⟨⟨[], [], [], 0⟩, ⟨[], [], [], 0⟩⟩, 1, true, 0⟩ :=
  C5_sync_idempotent ⟨⟨false, true⟩, ⟨[], 4⟩, [(0, ⟨0, 5, 0⟩)], [], ⟨[false]⟩,
      ⟨[false], none, 0, 1, false, 0⟩, ⟨[(0, [7])], [], [(0, [7])]⟩,
      ⟨⟨[], [], [], 0⟩, ⟨[], [], [], 0⟩⟩, 1, true, 0⟩
    ⟨⟨false, true⟩, ⟨[], 4⟩, [(0, ⟨0, 5, 0⟩)], [], ⟨[false]⟩,
      ⟨[false], none, 0, 1, false, 0⟩, ⟨[(0, [7])], [], [(0, [7])]⟩,
      ⟨⟨[], [], [], 0⟩, ⟨[], [], [], 0⟩⟩, 1, true, 0⟩ (by decide)

theorem assocGet_assocSet_self {α : Type} (l : List (Nat × α)) (k : Nat)
    (v : α) : assocGet (assocSet l k v) k = some v := by
  induction l with
  | nil => simp [assocSet, assocGet]
  | cons kv rest ih =>
    rcases kv with ⟨k', v'⟩
    by_cases h : k = k'
    · simp [assocSet, assocGet, h]
    · simp only [assocSet, h, if_false]
      simp only [assocGet, h, if_false]
      exact ih

theorem assocGet_assocSet_ne {α : Type} (l : List (Nat × α)) (k k' : Nat)
    (v : α) (h : k' ≠ k) :
    assocGet (assocSet l k v) k' = assocGet l k' := by
  induction l with
  | nil => simp [assocSet, assocGet, h]
  | cons kv rest ih =>
    rcases kv with ⟨k₀, v₀⟩
    by_cases h0 : k = k₀
    · subst h0
      simp [assocSet, assocGet, h]
    · simp only [assocSet, h0, if_false]
      by_cases h1 : k' = k₀
      · simp [assocGet, h1]
      · simp only [assocGet, h1, if_false]
        exact ih

theorem mem_assocSet {α : Type} {l : List (Nat × α)} {k : Nat} {v : α}
    {kv' : Nat × α} (h : kv' ∈ assocSet l k v) :
    kv' = (k, v) ∨ kv' ∈ l := by
  induction l with
  | nil =>
    simp [assocSet] at h
    exact Or.inl h
  | cons kv₀ rest ih =>
    rcases kv₀ with ⟨k₀, v₀⟩
    by_cases h0 : k = k₀
    · subst h0
      simp only [assocSet, if_pos rfl] at h
      rcases List.mem_cons.mp h with h1 | h1
      · exact Or.inl h1
      · exact Or.inr (List.mem_cons_of_mem _ h1)
    · simp only [assocSet, h0, if_false] at h
      rcases List.mem_cons.mp h with h1 | h1
      · exact Or.inr (h1 ▸ List.mem_cons_self _ _)
      · rcases ih h1 with h2 | h2
        · exact Or.inl h2
        · exact Or.inr (List.mem_cons_of_mem _ h2)

theorem assocSet_keys {α : Type} (l : List (Nat × α)) (k : Nat) (v : α) :
    (assocSet l k v).map Prod.fst =
      if k ∈ l.map Prod.fst then l.map Prod.fst
      else l.map Prod.fst ++ [k] := by
  induction l with
  | nil => simp [assocSet]
  | cons kv₀ rest ih =>
    rcases kv₀ with ⟨k₀, v₀⟩
    by_cases h0 : k = k₀
    · subst h0
      simp [assocSet]
    · simp only [assocSet, h0, if_false, List.map_cons]
      rw [ih]
      by_cases h1 : k ∈ rest.map Prod.fst
      · simp [h1, h0]
      · simp [h1, h0]

theorem assocSet_keys_nodup {α : Type} {l : List (Nat × α)} {k : Nat}
    {v : α} (h : (l.map Prod.fst).Nodup) :
    ((assocSet l k v).map Prod.fst).Nodup := by
  rw [assocSet_keys]
  split_ifs with hmem
  · exact h
  · simp [List.nodup_append, h, hmem]

theorem assocGet_eq_none_iff {α : Type} (l : List (Nat × α)) (k : Nat) :
    assocGet l k = none ↔ k ∉ l.map Prod.fst := by
  induction l with
  | nil => simp [assocGet]
  | cons kv rest ih =>
    rcases kv with ⟨k₀, v₀⟩
    by_cases h0 : k = k₀
    · simp [assocGet, h0]
    · simp [assocGet, h0, ih]

theorem assocGet_eq_some_mem {α : Type} {l : List (Nat × α)} {k : Nat}
    {v : α} (h : assocGet l k = some v) : (k, v) ∈ l := by
  induction l with
  | nil => simp [assocGet] at h
  | cons kv rest ih =>
    rcases kv with ⟨k₀, v₀⟩
    by_cases h0 : k = k₀
    · subst h0
      have hv : v₀ = v := by simpa [assocGet] using h
      subst hv
      exact List.mem_cons_self _ _
    · simp only [assocGet, h0, if_false] at h
      exact List.mem_cons_of_mem _ (ih h)

theorem nodup_hba_assocSet {l : List (Nat × RecordValue)} {k : Nat}
    {v : RecordValue}
    (hnd : (l.map (fun kv => kv.2.hba)).Nodup)
    (hfresh : ∀ kv ∈ l, kv.2.hba ≠ v.hba) :
    ((assocSet l k v).map (fun kv => kv.2.hba)).Nodup := by
  induction l with
  | nil => simp [assocSet]
  | cons kv₀ rest ih =>
    rcases kv₀ with ⟨k₀, v₀⟩
    simp only [List.map_cons, List.nodup_cons] at hnd
    by_cases h0 : k = k₀
    · subst h0
      rw [show assocSet ((k, v₀) :: rest) k v = (k, v) :: rest from by
        simp [assocSet]]
      simp only [List.map_cons, List.nodup_cons]
      refine ⟨?_, hnd.2⟩
      intro hmem
      simp only [List.mem_map] at hmem
      obtain ⟨kv₁, hkv₁, hh⟩ := hmem
      exact hfresh kv₁ (List.mem_cons_of_mem _ hkv₁) hh
    · simp only [assocSet, h0, if_false, List.map_cons, List.nodup_cons]
      refine ⟨?_, ih hnd.2
        (fun kv hkv => hfresh kv (List.mem_cons_of_mem _ hkv))⟩
      intro hmem
      simp only [List.mem_map] at hmem
      obtain ⟨kv₁, hkv₁, hh⟩ := hmem
      rcases mem_assocSet hkv₁ with h2 | h2
      · subst h2
        exact hfresh (k₀, v₀) (List.mem_cons_self _ _) hh.symm
      · exact hnd.1 (hh ▸ List.mem_map_of_mem (fun kv => kv.2.hba) h2)

theorem find?_append_of_none {α : Type} {p : α → Bool} {l1 l2 : List α}
    (h : l1.find? p = none) : (l1 ++ l2).find? p = l2.find? p := by
  induction l1 with
  | nil => simp
  | cons a t ih =>
    cases hpa : p a with
    | true =>
      rw [List.find?_cons_of_pos _ hpa] at h
      simp at h
    | false =>
      have hpa' : ¬ p a = true := by simp [hpa]
      rw [List.find?_cons_of_neg _ hpa'] at h
      rw [List.cons_append, List.find?_cons_of_neg _ hpa']
      exact ih h

theorem find?_append_of_some {α : Type} {p : α → Bool} {l1 l2 : List α}
    {a : α} (h : l1.find? p = some a) : (l1 ++ l2).find? p = some a := by
  induction l1 with
  | nil => simp at h
  | cons x t ih =>
    cases hpx : p x with
    | true =>
      rw [List.find?_cons_of_pos _ hpx] at h
      rw [List.cons_append, List.find?_cons_of_pos _ hpx]
      exact h
    | false =>
      have hpx' : ¬ p x = true := by simp [hpx]
      rw [List.find?_cons_of_neg _ hpx'] at h
      rw [List.cons_append, List.find?_cons_of_neg _ hpx']
      exact ih h

theorem find?_filter_of_imp {α : Type} {p q : α → Bool} (l : List α)
    (himp : ∀ x, p x = true → q x = true) :
    (l.filter q).find? p = l.find? p := by
  induction l with
  | nil => simp
  | cons a t ih =>
    cases hqa : q a with
    | true =>
      rw [List.filter_cons_of_pos hqa]
      cases hpa : p a with
      | true =>
        rw [List.find?_cons_of_pos _ hpa, List.find?_cons_of_pos _ hpa]
      | false =>
        have hpa' : ¬ p a = true := by simp [hpa]
        rw [List.find?_cons_of_neg _ hpa', List.find?_cons_of_neg _ hpa']
        exact ih
    | false =>
      rw [List.filter_cons_of_neg (by simp [hqa])]
      cases hpa : p a with
      | true =>
        exact absurd (himp a hpa) (by simp [hqa])
      | false =>
        have hpa' : ¬ p a = true := by simp [hpa]
        rw [List.find?_cons_of_neg _ hpa']
        exact ih

namespace DataBuf

theorem put_entries (d : DataBuf) (l : Nat) (b : Block) :
    ((d.put l b).2).entries =
      (d.entries.filter (fun kv => kv.1 ≠ l)) ++ [(l, b)] := rfl

theorem get_put_self (d : DataBuf) (l : Nat) (b : Block) :
    ((d.put l b).2).get l = some b := by
  unfold DataBuf.get
  rw [put_entries]
  have hnone : (d.entries.filter (fun kv => kv.1 ≠ l)).find?
      (fun kv => kv.1 = l) = none := by
    rw [List.find?_eq_none]
    intro kv hkv
    have := List.of_mem_filter hkv
    simp only [decide_eq_true_eq] at this ⊢
    exact this
  rw [find?_append_of_none hnone]
  simp

theorem get_put_ne (d : DataBuf) (l l' : Nat) (b : Block) (h : l' ≠ l) :
    ((d.put l b).2).get l' = d.get l' := by
  unfold DataBuf.get
  rw [put_entries]
  have hfil : (d.entries.filter (fun kv => kv.1 ≠ l)).find?
      (fun kv => kv.1 = l') = d.entries.find? (fun kv => kv.1 = l') := by
    apply find?_filter_of_imp
    intro x hx
    simp only [decide_eq_true_eq] at hx ⊢
    rw [hx]
    exact h
  have hsing : (([((l, b) : Nat × Block)]).find? (fun kv => kv.1 = l')) =
      none := by
    rw [List.find?_eq_none]
    intro kv hkv
    simp only [List.mem_singleton] at hkv
    subst hkv
    simp only [decide_eq_true_eq]
    exact fun he => h he.symm
  cases hres : d.entries.find? (fun kv => (kv.1 = l' : Bool)) with
  | none =>
    rw [find?_append_of_none (hfil.trans hres)]
    simp [hsing]
  | some kv =>
    rw [find?_append_of_some (hfil.trans hres)]

theorem get_none_not_mem {d : DataBuf} {l : Nat} (h : d.get l = none) :
    l ∉ d.entries.map Prod.fst := by
  intro hmem
  simp only [List.mem_map] at hmem
  obtain ⟨kv, hkv, hk⟩ := hmem
  unfold DataBuf.get at h
  rw [Option.map_eq_none'] at h
  rw [List.find?_eq_none] at h
  exact h kv hkv (by simp [hk])

theorem get_some_mem {d : DataBuf} {l : Nat} {b : Block}
    (h : d.get l = some b) : (l, b) ∈ d.entries := by
  unfold DataBuf.get at h
  rw [Option.map_eq_some'] at h
  obtain ⟨kv, hfind, hsnd⟩ := h
  have hmem := List.mem_of_find?_eq_some hfind
  have hp := List.find?_some hfind
  simp only [decide_eq_true_eq] at hp
  have : kv = (l, b) := by
    rcases kv with ⟨k1, b1⟩
    simp only at hp hsnd
    rw [hp, hsnd]
  rw [← this]
  exact hmem

theorem put_keys_nodup {d : DataBuf} {l : Nat} {b : Block}
    (h : (d.entries.map Prod.fst).Nodup) :
    (((d.put l b).2).entries.map Prod.fst).Nodup := by
  rw [put_entries, List.map_append]
  simp only [List.map_cons, List.map_nil]
  rw [List.nodup_append]
  refine ⟨List.Nodup.sublist (List.Sublist.map _ (List.filter_sublist _)) h,
    List.nodup_singleton _, ?_⟩
  intro a ha hb
  simp only [List.mem_singleton] at hb
  subst hb
  simp only [List.mem_map] at ha
  obtain ⟨kv, hkv, hfst⟩ := ha
  have hne := List.of_mem_filter hkv
  simp only [decide_eq_true_eq] at hne
  exact hne hfst

end DataBuf

theorem mkRecords_keys : ∀ (keyc : Nat) (es : List (Nat × Block))
    (hs : List Nat), es.length = hs.length →
    (mkRecords keyc es hs).map Prod.fst = es.map Prod.fst := by
  intro keyc es
  induction es generalizing keyc with
  | nil => intro hs _; simp [mkRecords]
  | cons e rest ih =>
    intro hs hlen
    cases hs with
    | nil => simp at hlen
    | cons h hs' =>
      rcases e with ⟨l, b⟩
      simp only [mkRecords, List.map_cons, List.cons.injEq]
      exact ⟨trivial, ih (keyc + 1) hs' (by simpa using hlen)⟩

theorem mkRecords_hbas : ∀ (keyc : Nat) (es : List (Nat × Block))
    (hs : List Nat), es.length = hs.length →
    (mkRecords keyc es hs).map (fun kv => kv.2.hba) = hs := by
  intro keyc es
  induction es generalizing keyc with
  | nil =>
    intro hs hlen
    cases hs with
    | nil => simp [mkRecords]
    | cons h hs' => simp at hlen
  | cons e rest ih =>
    intro hs hlen
    cases hs with
    | nil => simp at hlen
    | cons h hs' =>
      rcases e with ⟨l, b⟩
      simp only [mkRecords, List.map_cons, List.cons.injEq]
      exact ⟨trivial, ih (keyc + 1) hs' (by simpa using hlen)⟩

theorem mkCipherWrites_keys : ∀ (keyc : Nat) (es : List (Nat × Block))
    (hs : List Nat), es.length = hs.length →
    (mkCipherWrites keyc es hs).map Prod.fst = hs := by
  intro keyc es
  induction es generalizing keyc with
  | nil =>
    intro hs hlen
    cases hs with
    | nil => simp [mkCipherWrites]
    | cons h hs' => simp at hlen
  | cons e rest ih =>
    intro hs hlen
    cases hs with
    | nil => simp at hlen
    | cons h hs' =>
      rcases e with ⟨l, b⟩
      simp only [mkCipherWrites, List.map_cons, List.cons.injEq]
      exact ⟨trivial, ih (keyc + 1) hs' (by simpa using hlen)⟩

theorem mem_mkRecords_of_mem : ∀ (keyc : Nat) (es : List (Nat × Block))
    (hs : List Nat) (l : Nat) (b : Block), (l, b) ∈ es →
    es.length = hs.length →
    ∃ v : RecordValue, (l, v) ∈ mkRecords keyc es hs ∧
      (v.hba, encryptBlock v.key b) ∈ mkCipherWrites keyc es hs := by
  intro keyc es
  induction es generalizing keyc with
  | nil => intro hs l b hmem; simp at hmem
  | cons e rest ih =>
    intro hs l b hmem hlen
    cases hs with
    | nil => simp at hlen
    | cons h hs' =>
      rcases e with ⟨l₀, b₀⟩
      rcases List.mem_cons.mp hmem with heq | hmem'
      · obtain ⟨rfl, rfl⟩ := Prod.mk.injEq .. ▸ heq
        refine ⟨⟨h, keyc, 0⟩, ?_, ?_⟩
        · exact List.mem_cons_self _ _
        · exact List.mem_cons_self _ _
      · obtain ⟨v, hv1, hv2⟩ :=
          ih (keyc + 1) hs' l b hmem' (by simpa using hlen)
        exact ⟨v, List.mem_cons_of_mem _ hv1, List.mem_cons_of_mem _ hv2⟩

theorem mkRecords_append : ∀ (es1 : List (Nat × Block)) (hs1 : List Nat)
    (keyc : Nat) (es2 : List (Nat × Block)) (hs2 : List Nat),
    es1.length = hs1.length →
    mkRecords keyc (es1 ++ es2) (hs1 ++ hs2) =
      mkRecords keyc es1 hs1 ++ mkRecords (keyc + es1.length) es2 hs2 := by
  intro es1
  induction es1 with
  | nil =>
    intro hs1 keyc es2 hs2 hlen
    cases hs1 with
    | nil => simp [mkRecords]
    | cons h hs' => simp at hlen
  | cons e rest ih =>
    intro hs1 keyc es2 hs2 hlen
    cases hs1 with
    | nil => simp at hlen
    | cons h hs' =>
      rcases e with ⟨l, b⟩
      simp only [List.cons_append, mkRecords, List.length_cons,
        List.cons.injEq]
      refine ⟨trivial, ?_⟩
      simp only [List.append_eq]
      rw [ih hs' (keyc + 1) es2 hs2 (by simpa using hlen)]
      rw [show keyc + 1 + rest.length = keyc + (rest.length + 1) from by omega]

theorem mkCipherWrites_append : ∀ (es1 : List (Nat × Block))
    (hs1 : List Nat) (keyc : Nat) (es2 : List (Nat × Block))
    (hs2 : List Nat), es1.length = hs1.length →
    mkCipherWrites keyc (es1 ++ es2) (hs1 ++ hs2) =
      mkCipherWrites keyc es1 hs1 ++
        mkCipherWrites (keyc + es1.length) es2 hs2 := by
  intro es1
  induction es1 with
  | nil =>
    intro hs1 keyc es2 hs2 hlen
    cases hs1 with
    | nil => simp [mkCipherWrites]
    | cons h hs' => simp at hlen
  | cons e rest ih =>
    intro hs1 keyc es2 hs2 hlen
    cases hs1 with
    | nil => simp at hlen
    | cons h hs' =>
      rcases e with ⟨l, b⟩
      simp only [List.cons_append, mkCipherWrites, List.length_cons,
        List.cons.injEq]
      refine ⟨trivial, ?_⟩
      simp only [List.append_eq]
      rw [ih hs' (keyc + 1) es2 hs2 (by simpa using hlen)]
      rw [show keyc + 1 + rest.length = keyc + (rest.length + 1) from by omega]

theorem applyWrites_append (d : List (Nat × Block)) (ws1 ws2 : List (Nat × Block)) :
    applyWrites d (ws1 ++ ws2) = applyWrites (applyWrites d ws1) ws2 := by
  unfold applyWrites
  rw [List.foldl_append]

theorem assocGet_applyWrites_not_mem {ws : List (Nat × Block)}
    {d : List (Nat × Block)} {h : Nat} (hnot : h ∉ ws.map Prod.fst) :
    assocGet (applyWrites d ws) h = assocGet d h := by
  induction ws generalizing d with
  | nil => rfl
  | cons w t ih =>
    simp only [List.map_cons, List.mem_cons] at hnot
    push_neg at hnot
    show assocGet (applyWrites (assocSet d w.1 w.2) t) h = assocGet d h
    rw [ih hnot.2]
    exact assocGet_assocSet_ne _ _ _ _ hnot.1

theorem assocGet_applyWrites_mem {ws : List (Nat × Block)}
    {d : List (Nat × Block)} {h : Nat} {b : Block}
    (hnd : (ws.map Prod.fst).Nodup) (hmem : (h, b) ∈ ws) :
    assocGet (applyWrites d ws) h = some b := by
  induction ws generalizing d with
  | nil => simp at hmem
  | cons w t ih =>
    simp only [List.map_cons, List.nodup_cons] at hnd
    rcases List.mem_cons.mp hmem with heq | hmem'
    · subst heq
      show assocGet (applyWrites (assocSet d h b) t) h = some b
      rw [assocGet_applyWrites_not_mem hnd.1]
      exact assocGet_assocSet_self _ _ _
    · exact ih hnd.2 hmem'

theorem groupRuns_flatten (l : List Nat) : (groupRuns l).flatten = l := by
  induction l with
  | nil => rfl
  | cons h t ih =>
    simp only [groupRuns]
    cases hg : groupRuns t with
    | nil =>
      rw [hg] at ih
      simp only [List.flatten_nil] at ih
      simp [← ih]
    | cons g gs =>
      rw [hg] at ih
      cases g with
      | nil =>
        simp only [List.flatten_cons, List.nil_append] at ih
        simp [List.flatten_cons, ih]
      | cons x g' =>
        by_cases hx : x = h + 1
        · simp only [if_pos hx, List.flatten_cons]
          simp only [List.flatten_cons] at ih
          simp [ih]
        · simp only [if_neg hx, List.flatten_cons]
          simp only [List.flatten_cons] at ih
          simp [ih]

theorem groupRuns_runs (l : List Nat) :
    ∀ g ∈ groupRuns l, ∃ a k, g = List.range' a (k + 1) := by
  induction l with
  | nil => simp [groupRuns]
  | cons h t ih =>
    intro g hg
    simp only [groupRuns] at hg
    cases hgt : groupRuns t with
    | nil =>
      rw [hgt] at hg
      simp only [List.mem_singleton] at hg
      subst hg
      exact ⟨h, 0, by simp⟩
    | cons g₀ gs =>
      rw [hgt] at hg
      cases g₀ with
      | nil =>
        exfalso
        obtain ⟨a, k, hak⟩ := ih [] (hgt ▸ List.mem_cons_self _ _)
        have := congrArg List.length hak
        simp [List.length_range'] at this
      | cons x g' =>
        obtain ⟨a, k, hak⟩ := ih (x :: g') (hgt ▸ List.mem_cons_self _ _)
        have hxa : x = a := by
          have hh := congrArg List.head? hak
          simpa [List.range'_succ] using hh
        have hg2 : x :: g' = List.range' x (k + 1) := by rw [hak, hxa]
        by_cases hx : x = h + 1
        · simp only [hx, eq_self_iff_true, if_true] at hg
          rcases List.mem_cons.mp hg with heq | hmem
          · subst heq
            refine ⟨h, k + 1, ?_⟩
            rw [List.range'_succ]
            congr 1
            rw [← hx]
            exact hg2
          · exact ih g (hgt ▸ List.mem_cons_of_mem _ hmem)
        · simp only [hx, if_false] at hg
          rcases List.mem_cons.mp hg with heq | hmem
          · subst heq
            exact ⟨h, 0, by simp⟩
          · exact ih g (hgt ▸ hmem)

theorem zip_fst_snd {α β : Type} (w : List (α × β)) :
    (w.map Prod.fst).zip (w.map Prod.snd) = w := by
  induction w with
  | nil => rfl
  | cons p t ih => simp [ih]

theorem writeSeq_eq (cs : List Block) : ∀ (d : List (Nat × Block)) (start : Nat),
    Disk.writeSeq d start cs = applyWrites d ((List.range' start cs.length).zip cs) := by
  induction cs with
  | nil => intro d start; rfl
  | cons c cs' ih =>
    intro d start
    show Disk.writeSeq (assocSet d start c) (start + 1) cs' = _
    rw [ih]
    simp only [List.length_cons, List.range'_succ, List.zip_cons_cons]
    rfl

theorem encryptBatch_spec : ∀ (ps : List ((Nat × Block) × Nat)) (keyc : Nat),
    encryptBatch keyc ps =
      ((mkCipherWrites keyc (ps.map Prod.fst) (ps.map Prod.snd)).map Prod.snd,
       mkRecords keyc (ps.map Prod.fst) (ps.map Prod.snd),
       keyc + ps.length) := by
  intro ps
  induction ps with
  | nil => intro keyc; simp [encryptBatch, mkCipherWrites, mkRecords]
  | cons p t ih =>
    intro keyc
    rcases p with ⟨⟨l, b⟩, h⟩
    simp only [encryptBatch, List.map_cons, mkCipherWrites, mkRecords,
      List.length_cons, ih (keyc + 1), Prod.mk.injEq]
    refine ⟨trivial, trivial, by omega⟩

theorem writeBatches_spec : ∀ (runs : List (List Nat)) (s : State)
    (blocks : List (Nat × Block)) (s' : State)
    (recs : List (Nat × RecordValue)),
    (∀ run ∈ runs, ∃ a k, run = List.range' a (k + 1)) →
    runs.flatten.length = blocks.length →
    writeBatches s blocks runs = .ok (s', recs) →
    recs = mkRecords s.key_counter blocks runs.flatten ∧
    s' = { s with
      user_data_disk := { s.user_data_disk with
        data := applyWrites s.user_data_disk.data
          (mkCipherWrites s.key_counter blocks runs.flatten) },
      key_counter := s.key_counter + blocks.length } := by
  intro runs
  induction runs with
  | nil =>
    intro s blocks s' recs _ hlen hok
    have hb : blocks = [] := List.length_eq_zero.mp (by simpa using hlen.symm)
    subst hb
    simp only [writeBatches, Except.ok.injEq, Prod.mk.injEq] at hok
    obtain ⟨h1, h2⟩ := hok
    subst h1; subst h2
    exact ⟨rfl, rfl⟩
  | cons run rest ih =>
    intro s blocks s' recs hruns hlen hok
    obtain ⟨a, k, hak⟩ := hruns run (List.mem_cons_self _ _)
    have hrl : run.length = k + 1 := by rw [hak]; simp
    have hlb : run.length ≤ blocks.length := by
      simp only [List.flatten_cons, List.length_append] at hlen; omega
    have hbl : (blocks.take run.length).length = run.length := by
      simp only [List.length_take]; omega
    have hfst : ((blocks.take run.length).zip run).map Prod.fst
        = blocks.take run.length :=
      List.map_fst_zip _ _ (le_of_eq hbl)
    have hsnd : ((blocks.take run.length).zip run).map Prod.snd = run :=
      List.map_snd_zip _ _ (le_of_eq hbl.symm)
    have hzl : ((blocks.take run.length).zip run).length = run.length := by
      simp only [List.length_zip]; omega
    simp only [writeBatches, encryptBatch_spec, hfst, hsnd, hzl] at hok
    rcases hw : s.user_data_disk.writeRun (run.headD 0)
        ((mkCipherWrites s.key_counter (blocks.take run.length) run).map
          Prod.snd)
      with _ | d'
    · rw [hw] at hok; simp at hok
    · rw [hw] at hok
      simp only at hok
      rcases hrec : writeBatches
          { s with user_data_disk := d',
                   key_counter := s.key_counter + run.length }
          (blocks.drop run.length) rest with e | p
      · rw [hrec] at hok; simp at hok
      · obtain ⟨s1, recs1⟩ := p
        rw [hrec] at hok
        simp only [Except.ok.injEq, Prod.mk.injEq] at hok
        obtain ⟨hs1, hrecs⟩ := hok
        have hlen' : rest.flatten.length = (blocks.drop run.length).length := by
          simp only [List.flatten_cons, List.length_append] at hlen
          simp only [List.length_drop]; omega
        obtain ⟨hrest1, hrest2⟩ :=
          ih _ _ _ _ (fun r hr => hruns r (List.mem_cons_of_mem _ hr))
            hlen' hrec
        have hkeys :
            (mkCipherWrites s.key_counter (blocks.take run.length) run).map
              Prod.fst = run :=
          mkCipherWrites_keys _ _ _ hbl
        have hcl :
            (mkCipherWrites s.key_counter (blocks.take run.length) run).length
              = run.length := by
          have hlk := congrArg List.length hkeys
          simpa using hlk
        have hcs_len :
            ((mkCipherWrites s.key_counter (blocks.take run.length) run).map
              Prod.snd).length = run.length := by
          simp [hcl]
        have hhd : run.headD 0 = a := by
          rw [hak, List.range'_succ]; rfl
        have hzip :
            (List.range' (run.headD 0)
              ((mkCipherWrites s.key_counter (blocks.take run.length)
                run).map Prod.snd).length).zip
              ((mkCipherWrites s.key_counter (blocks.take run.length)
                run).map Prod.snd)
              = mkCipherWrites s.key_counter (blocks.take run.length) run := by
          have hrange :
              List.range' (run.headD 0)
                ((mkCipherWrites s.key_counter (blocks.take run.length)
                  run).map Prod.snd).length
                = (mkCipherWrites s.key_counter (blocks.take run.length)
                    run).map Prod.fst := by
            rw [hcs_len, hhd, hkeys, hrl]
            exact hak.symm
          rw [hrange]
          exact zip_fst_snd _
        simp only [Disk.writeRun] at hw
        split at hw
        · exact absurd hw (by simp)
        · simp only [Except.ok.injEq] at hw
          rw [writeSeq_eq, hzip] at hw
          rw [← hw] at hrest2
          have htd : blocks.take run.length ++ blocks.drop run.length
              = blocks := List.take_append_drop _ _
          constructor
          · rw [← htd, List.flatten_cons,
              mkRecords_append _ _ _ _ _ (by rw [hbl]), hbl, ← hrecs,
              hrest1]
          · rw [← hs1, ← htd, List.flatten_cons,
              mkCipherWrites_append _ _ _ _ _ (by rw [hbl]), hbl,
              applyWrites_append, List.length_append, hbl,
              ← Nat.add_assoc]
            exact hrest2

theorem assocGet_of_mem_nodup {α : Type} {l : List (Nat × α)} {k : Nat}
    {v : α} (hnd : (l.map Prod.fst).Nodup) (hmem : (k, v) ∈ l) :
    assocGet l k = some v := by
  induction l with
  | nil => simp at hmem
  | cons kv rest ih =>
    rcases kv with ⟨k₀, v₀⟩
    simp only [List.map_cons, List.nodup_cons] at hnd
    rcases List.mem_cons.mp hmem with heq | hmem'
    · obtain ⟨h1, h2⟩ := Prod.mk.injEq .. ▸ heq
      subst h1; subst h2
      simp [assocGet]
    · have hk : ¬ k = k₀ := by
        intro h
        subst h
        exact hnd.1 (List.mem_map_of_mem Prod.fst hmem')
      simp only [assocGet, hk, if_false]
      exact ih hnd.2 hmem'

theorem insertStep_table (s : State) (kv : Nat × RecordValue) :
    (insertStep s kv).logical_block_table =
      assocSet s.logical_block_table kv.1 kv.2 := by
  unfold insertStep State.putRecord
  rcases hget : assocGet s.logical_block_table kv.1 with _ | old <;>
    simp only [hget] <;> split <;> rfl

theorem insertStep_frame (s : State) (kv : Nat × RecordValue) :
    (insertStep s kv).user_data_disk = s.user_data_disk ∧
    (insertStep s kv).data_buf = s.data_buf ∧
    (insertStep s kv).config = s.config ∧
    (insertStep s kv).block_validity_table.nblocks =
      s.block_validity_table.nblocks ∧
    (insertStep s kv).block_validity_table.bitmap.length =
      s.block_validity_table.bitmap.length := by
  unfold insertStep State.putRecord onDropRecordInMemtable
  rcases hget : assocGet s.logical_block_table kv.1 with _ | old
  · simp only [hget]
    split <;> exact ⟨rfl, rfl, rfl, rfl, rfl⟩
  · simp only [hget]
    split_ifs <;>
      refine ⟨rfl, rfl, rfl, rfl, ?_⟩ <;>
      first
        | rfl
        | exact BitMap.length_setBit _ _ _

theorem insertStep_bvt_none (s : State) (kv : Nat × RecordValue)
    (h : assocGet s.logical_block_table kv.1 = none) :
    (insertStep s kv).block_validity_table = s.block_validity_table := by
  unfold insertStep State.putRecord
  simp only [h]
  split <;> rfl

theorem insertStep_bvt_some (s : State) (kv : Nat × RecordValue)
    (old : RecordValue)
    (h : assocGet s.logical_block_table kv.1 = some old) :
    (insertStep s kv).block_validity_table = s.block_validity_table ∨
    (insertStep s kv).block_validity_table =
      s.block_validity_table.set_deallocated old.hba := by
  unfold insertStep State.putRecord onDropRecordInMemtable
  simp only [h]
  split_ifs <;> first | exact Or.inl rfl | exact Or.inr rfl

theorem insertRecords_cons (s : State) (r : Nat × RecordValue)
    (rest : List (Nat × RecordValue)) :
    s.insertRecords (r :: rest) = (insertStep s r).insertRecords rest := rfl

theorem insertRecords_nil (s : State) : s.insertRecords [] = s := rfl

theorem insertRecords_go : ∀ (recs : List (Nat × RecordValue)) (s : State),
    CoreInv s.logical_block_table s.block_validity_table →
    (recs.map Prod.fst).Nodup →
    (recs.map (fun kv => kv.2.hba)).Nodup →
    (∀ r ∈ recs, r.2.hba < s.block_validity_table.nblocks ∧
      s.block_validity_table.bitmap.testBit r.2.hba = false ∧
      r.2.hba ∉ s.logical_block_table.map (fun kv => kv.2.hba)) →
    CoreInv (s.insertRecords recs).logical_block_table
      (s.insertRecords recs).block_validity_table ∧
    (∀ lv ∈ recs,
      assocGet (s.insertRecords recs).logical_block_table lv.1 = some lv.2) ∧
    (∀ l, l ∉ recs.map Prod.fst →
      assocGet (s.insertRecords recs).logical_block_table l =
        assocGet s.logical_block_table l) ∧
    (s.insertRecords recs).user_data_disk = s.user_data_disk ∧
    (s.insertRecords recs).data_buf = s.data_buf ∧
    (s.insertRecords recs).block_validity_table.nblocks =
      s.block_validity_table.nblocks := by
  intro recs
  induction recs with
  | nil =>
    intro s hinv _ _ _
    exact ⟨hinv, by simp, fun l _ => rfl, rfl, rfl, rfl⟩
  | cons r rest ih =>
    intro s hinv hkeys hhbas hall
    obtain ⟨hbl, hnf, hknd, hhnd, hmem5⟩ := hinv
    simp only [List.map_cons, List.nodup_cons] at hkeys hhbas
    obtain ⟨hr1, hr2, hr3⟩ := hall r (List.mem_cons_self _ _)
    have htab1 : (insertStep s r).logical_block_table =
        assocSet s.logical_block_table r.1 r.2 := insertStep_table s r
    obtain ⟨hfr1, hfr2, hfr3, hfr4, hfr5⟩ := insertStep_frame s r
    have hfreshne : ∀ kv ∈ s.logical_block_table, kv.2.hba ≠ r.2.hba := by
      intro kv hkv he
      exact hr3 (he ▸ List.mem_map_of_mem (fun kv => kv.2.hba) hkv)
    have hknd1 : ((insertStep s r).logical_block_table.map Prod.fst).Nodup := by
      rw [htab1]; exact assocSet_keys_nodup hknd
    have hhnd1 : ((insertStep s r).logical_block_table.map
        (fun kv => kv.2.hba)).Nodup := by
      rw [htab1]; exact nodup_hba_assocSet hhnd hfreshne
    have hnotin1 : ∀ r' ∈ rest,
        r'.2.hba ∉ (insertStep s r).logical_block_table.map
          (fun kv => kv.2.hba) := by
      intro r' hr' hmem
      rw [htab1] at hmem
      simp only [List.mem_map] at hmem
      obtain ⟨kv, hkv, hkveq⟩ := hmem
      rcases mem_assocSet hkv with heq2 | hkv'
      · subst heq2
        have hkveq' : r.2.hba = r'.2.hba := hkveq
        apply hhbas.1
        rw [hkveq']
        exact List.mem_map_of_mem (fun kv => kv.2.hba) hr'
      · apply (hall r' (List.mem_cons_of_mem _ hr')).2.2
        rw [← hkveq]
        exact List.mem_map_of_mem (fun kv => kv.2.hba) hkv'
    have hbvt : (insertStep s r).block_validity_table =
          s.block_validity_table ∨
        ∃ old : RecordValue, (r.1, old) ∈ s.logical_block_table ∧
          (insertStep s r).block_validity_table =
            s.block_validity_table.set_deallocated old.hba := by
      rcases hget : assocGet s.logical_block_table r.1 with _ | old
      · exact Or.inl (insertStep_bvt_none s r hget)
      · rcases insertStep_bvt_some s r old hget with h | h
        · exact Or.inl h
        · exact Or.inr ⟨old, assocGet_eq_some_mem hget, h⟩
    have hfacts :
        (insertStep s r).block_validity_table.bitmap.length =
          (insertStep s r).block_validity_table.nblocks ∧
        (insertStep s r).block_validity_table.num_free =
          (insertStep s r).block_validity_table.bitmap.countOnes ∧
        (∀ kv ∈ (insertStep s r).logical_block_table,
          kv.2.hba < (insertStep s r).block_validity_table.nblocks ∧
          (insertStep s r).block_validity_table.bitmap.testBit kv.2.hba
            = false) ∧
        (∀ r' ∈ rest,
          r'.2.hba < (insertStep s r).block_validity_table.nblocks ∧
          (insertStep s r).block_validity_table.bitmap.testBit r'.2.hba
            = false) := by
      rcases hbvt with heq | ⟨old, hold_mem, heq⟩
      · refine ⟨by rw [heq]; exact hbl, by rw [heq]; exact hnf, ?_, ?_⟩
        · intro kv hkv
          rw [heq]
          rw [htab1] at hkv
          rcases mem_assocSet hkv with heq2 | hkv'
          · subst heq2; exact ⟨hr1, hr2⟩
          · exact hmem5 kv hkv'
        · intro r' hr'
          rw [heq]
          exact ⟨(hall r' (List.mem_cons_of_mem _ hr')).1,
                 (hall r' (List.mem_cons_of_mem _ hr')).2.1⟩
      · have hold5 := hmem5 _ hold_mem
        have hne_r : r.2.hba ≠ old.hba := by
          intro he
          apply hr3
          rw [he]
          exact List.mem_map_of_mem (fun kv => kv.2.hba) hold_mem
        have hsb : (s.block_validity_table.set_deallocated old.hba).bitmap =
            s.block_validity_table.bitmap.setBit old.hba true := rfl
        have hsn : (s.block_validity_table.set_deallocated old.hba).num_free =
            s.block_validity_table.num_free + 1 := rfl
        have hsk : (s.block_validity_table.set_deallocated old.hba).nblocks =
            s.block_validity_table.nblocks := rfl
        refine ⟨?_, ?_, ?_, ?_⟩
        · rw [heq, hsb, hsk, BitMap.length_setBit]; exact hbl
        · rw [heq, hsn, hsb,
            BitMap.countOnes_setBit_true _ _ hold5.2
              (by rw [hbl]; exact hold5.1)]
          omega
        · intro kv hkv
          rw [heq, hsk, hsb]
          rw [htab1] at hkv
          rcases mem_assocSet hkv with heq2 | hkv'
          · subst heq2
            refine ⟨hr1, ?_⟩
            rw [BitMap.testBit_setBit,
              if_neg (fun hc => hne_r hc.1.symm)]
            exact hr2
          · have hkvne : kv.2.hba ≠ old.hba := by
              intro he
              have hkveq : kv = (r.1, old) :=
                List.inj_on_of_nodup_map hhnd hkv' hold_mem he
              rw [hkveq] at hkv
              have h1 := assocGet_of_mem_nodup
                (assocSet_keys_nodup hknd) hkv
              rw [assocGet_assocSet_self] at h1
              simp only [Option.some.injEq] at h1
              apply hr3
              rw [h1]
              exact List.mem_map_of_mem (fun kv => kv.2.hba) hold_mem
            refine ⟨(hmem5 kv hkv').1, ?_⟩
            rw [BitMap.testBit_setBit,
              if_neg (fun hc => hkvne hc.1.symm)]
            exact (hmem5 kv hkv').2
        · intro r' hr'
          have h' := hall r' (List.mem_cons_of_mem _ hr')
          have hne' : r'.2.hba ≠ old.hba := by
            intro he
            apply h'.2.2
            rw [he]
            exact List.mem_map_of_mem (fun kv => kv.2.hba) hold_mem
          rw [heq, hsk, hsb]
          refine ⟨h'.1, ?_⟩
          rw [BitMap.testBit_setBit, if_neg (fun hc => hne' hc.1.symm)]
          exact h'.2.1
    obtain ⟨hb1, hb2, hb5, hrest⟩ := hfacts
    have hihres := ih (insertStep s r) ⟨hb1, hb2, hknd1, hhnd1, hb5⟩
      hkeys.2 hhbas.2
      (fun r' hr' => ⟨(hrest r' hr').1, (hrest r' hr').2, hnotin1 r' hr'⟩)
    have hstep : s.insertRecords (r :: rest) =
        (insertStep s r).insertRecords rest := insertRecords_cons s r rest
    rw [hstep]
    refine ⟨hihres.1, ?_, ?_, ?_, ?_, ?_⟩
    · intro lv hlv
      rcases List.mem_cons.mp hlv with heq2 | hlv'
      · subst heq2
        rw [hihres.2.2.1 lv.1 hkeys.1, htab1]
        exact assocGet_assocSet_self _ _ _
      · exact hihres.2.1 lv hlv'
    · intro l hl
      simp only [List.map_cons, List.mem_cons] at hl
      push_neg at hl
      rw [hihres.2.2.1 l hl.2, htab1]
      exact assocGet_assocSet_ne _ _ _ _ hl.1
    · rw [hihres.2.2.2.1]; exact hfr1
    · rw [hihres.2.2.2.2.1]; exact hfr2
    · rw [hihres.2.2.2.2.2]; exact hfr4

theorem flushCore (s s1 : State) (recs : List (Nat × RecordValue))
    (hinv : DiskInv s)
    (hw : s.writeBlocksFromDataBuf = .ok (s1, recs)) :
    DiskInv (s1.finishFlush recs) ∧
    ∀ l b, s.readOneBlock l = .ok b →
      (s1.finishFlush recs).readOneBlock l = .ok b := by
  unfold DiskInv at hinv
  obtain ⟨hbl, hnf, hknd, hhnd, hmem5, hbuf⟩ := hinv
  simp only [State.writeBlocksFromDataBuf] at hw
  split at hw
  · -- empty data buffer: nothing is written
    rename_i h0
    simp only [Except.ok.injEq, Prod.mk.injEq] at hw
    obtain ⟨hs1, hrecs⟩ := hw
    subst hs1
    subst hrecs
    have hentries : s.data_buf.entries = [] := List.length_eq_zero.mp h0
    constructor
    · exact ⟨hbl, hnf, hknd, hhnd, hmem5, List.nodup_nil⟩
    · intro l b hrb
      have hget0 : s.data_buf.get l = none := by
        simp [DataBuf.get, hentries]
      unfold State.readOneBlock at hrb ⊢
      rw [hget0] at hrb
      exact hrb
  · -- nonempty buffer: allocate, encrypt, write, insert
    rename_i h0
    rcases hab : s.block_validity_table.allocBatch s.data_buf.allBlocks.length
      with e | p
    · rw [hab] at hw; simp at hw
    · obtain ⟨hbas, table'⟩ := p
      rw [hab] at hw
      simp only at hw
      obtain ⟨hnle, hlen, hnd, hfree, hbm, hnf', hnb, hdirty⟩ :=
        AllocTable.allocBatch_ok hab
      have hflat : (groupRuns hbas).flatten = hbas := groupRuns_flatten hbas
      have hflen : (groupRuns hbas).flatten.length =
          s.data_buf.allBlocks.length := by rw [hflat, hlen]
      obtain ⟨hrecs, hs1⟩ := writeBatches_spec (groupRuns hbas) _ _ _ _
        (groupRuns_runs hbas) hflen hw
      rw [hflat] at hrecs hs1
      have hrecs' : recs =
          mkRecords s.key_counter s.data_buf.allBlocks hbas := hrecs
      have h_s1tab : s1.logical_block_table = s.logical_block_table := by
        rw [hs1]
      have h_s1bvt : s1.block_validity_table = table' := by rw [hs1]
      have h_s1disk : s1.user_data_disk = { s.user_data_disk with
          data := applyWrites s.user_data_disk.data
            (mkCipherWrites s.key_counter s.data_buf.allBlocks hbas) } := by
        rw [hs1]
      have hlen' : s.data_buf.allBlocks.length = hbas.length := hlen.symm
      have hrkeys : recs.map Prod.fst = s.data_buf.allBlocks.map Prod.fst := by
        rw [hrecs']
        exact mkRecords_keys _ _ _ hlen'
      have hrhbas : recs.map (fun kv => kv.2.hba) = hbas := by
        rw [hrecs']
        exact mkRecords_hbas _ _ _ hlen'
      have hcwkeys :
          (mkCipherWrites s.key_counter s.data_buf.allBlocks hbas).map
            Prod.fst = hbas :=
        mkCipherWrites_keys _ _ _ hlen'
      -- the freshly allocated HBAs are disjoint from the referenced ones
      have hfresh : ∀ x ∈ hbas,
          x ∉ s.logical_block_table.map (fun kv => kv.2.hba) := by
        intro x hx hmem
        simp only [List.mem_map] at hmem
        obtain ⟨kv, hkv, hkveq⟩ := hmem
        have h1 := (hmem5 kv hkv).2
        rw [hkveq] at h1
        rw [(hfree x hx).1] at h1
        exact Bool.noConfusion h1
      -- the fold hypotheses at s1
      have hcore : CoreInv s1.logical_block_table s1.block_validity_table := by
        rw [h_s1tab, h_s1bvt]
        unfold CoreInv
        refine ⟨?_, ?_, hknd, hhnd, ?_⟩
        · rw [hbm, hnb, BitMap.foldl_clear_length]; exact hbl
        · have hcnt := BitMap.foldl_clear_countOnes hbas
            s.block_validity_table.bitmap hnd (fun x hx => (hfree x hx).1)
          rw [hnf', hbm]
          omega
        · intro kv hkv
          refine ⟨by rw [hnb]; exact (hmem5 kv hkv).1, ?_⟩
          rw [hbm, BitMap.foldl_clear_testBit]
          split_ifs with hc
          · rfl
          · exact (hmem5 kv hkv).2
      have hallrec : ∀ r ∈ recs,
          r.2.hba < s1.block_validity_table.nblocks ∧
          s1.block_validity_table.bitmap.testBit r.2.hba = false ∧
          r.2.hba ∉ s1.logical_block_table.map (fun kv => kv.2.hba) := by
        intro r hr
        have hrh : r.2.hba ∈ hbas := by
          rw [← hrhbas]
          exact List.mem_map_of_mem (fun kv => kv.2.hba) hr
        rw [h_s1tab, h_s1bvt, hnb, hbm]
        refine ⟨?_, ?_, hfresh _ hrh⟩
        · rw [← hbl]; exact (hfree _ hrh).2
        · rw [BitMap.foldl_clear_testBit]
          rw [if_pos ⟨hrh, (hfree _ hrh).2⟩]
      have hins := insertRecords_go recs s1 hcore
        (by rw [hrkeys]; exact hbuf) (by rw [hrhbas]; exact hnd) hallrec
      -- fields of the flushed state
      have hFtab : (s1.finishFlush recs).logical_block_table =
          (s1.insertRecords recs).logical_block_table := rfl
      have hFbvt : (s1.finishFlush recs).block_validity_table =
          (s1.insertRecords recs).block_validity_table := rfl
      have hFdisk : (s1.finishFlush recs).user_data_disk =
          (s1.insertRecords recs).user_data_disk := rfl
      have hFget : ∀ l, (s1.finishFlush recs).data_buf.get l = none :=
        fun _ => rfl
      constructor
      · unfold DiskInv
        rw [hFtab, hFbvt]
        obtain ⟨⟨c1, c2, c3, c4, c5⟩, _⟩ := hins
        exact ⟨c1, c2, c3, c4, c5, List.nodup_nil⟩
      · intro l b hrb
        unfold State.readOneBlock at hrb
        rcases hbget : s.data_buf.get l with _ | b0
        · -- the read was served from the index and the disk
          rw [hbget] at hrb
          rcases hfwd : assocGet s.logical_block_table l with _ | v
          · rw [hfwd] at hrb; simp at hrb
          · rw [hfwd] at hrb
            simp only [Disk.readBlock, Except.ok.injEq] at hrb
            have hnotrec : l ∉ recs.map Prod.fst := by
              rw [hrkeys]
              exact DataBuf.get_none_not_mem hbget
            have h2 : assocGet (s1.finishFlush recs).logical_block_table l
                = some v := by
              rw [hFtab, hins.2.2.1 l hnotrec, h_s1tab]
              exact hfwd
            have hvmem : (l, v) ∈ s.logical_block_table :=
              assocGet_eq_some_mem hfwd
            have hvnot : v.hba ∉
                (mkCipherWrites s.key_counter s.data_buf.allBlocks hbas).map
                  Prod.fst := by
              rw [hcwkeys]
              intro hin
              have h1 := (hmem5 _ hvmem).2
              rw [(hfree _ hin).1] at h1
              exact Bool.noConfusion h1
            have h3 : assocGet (s1.finishFlush recs).user_data_disk.data
                v.hba = assocGet s.user_data_disk.data v.hba := by
              rw [hFdisk, hins.2.2.2.1, h_s1disk]
              exact assocGet_applyWrites_not_mem hvnot
            simp only [State.readOneBlock, hFget, h2, Disk.readBlock, h3,
              Except.ok.injEq]
            exact hrb
        · -- the read was served from the data buffer
          rw [hbget] at hrb
          simp only [Except.ok.injEq] at hrb
          subst hrb
          have hbmem : (l, b0) ∈ s.data_buf.allBlocks :=
            DataBuf.get_some_mem hbget
          obtain ⟨v, hvrec, hvc⟩ := mem_mkRecords_of_mem s.key_counter
            s.data_buf.allBlocks hbas l b0 hbmem hlen'
          have h2 : assocGet (s1.finishFlush recs).logical_block_table l
              = some v := by
            rw [hFtab]
            have := hins.2.1 (l, v) (by rw [hrecs']; exact hvrec)
            exact this
          have hcwnd :
              ((mkCipherWrites s.key_counter s.data_buf.allBlocks hbas).map
                Prod.fst).Nodup := by
            rw [hcwkeys]; exact hnd
          have h3 : assocGet (s1.finishFlush recs).user_data_disk.data
              v.hba = some (encryptBlock v.key b0) := by
            rw [hFdisk, hins.2.2.2.1, h_s1disk]
            exact assocGet_applyWrites_mem hcwnd hvc
          simp only [State.readOneBlock, hFget, h2, Disk.readBlock, h3,
            Option.getD_some, decryptBlock_encryptBlock, Except.ok.injEq]

theorem flush_good (s s'' : State) (hinv : DiskInv s)
    (hf : s.flushDataBuf = .ok s'') :
    DiskInv s'' ∧ ∀ l b, s.readOneBlock l = .ok b →
      s''.readOneBlock l = .ok b := by
  unfold State.flushDataBuf at hf
  rcases hwb : s.writeBlocksFromDataBuf with e | p
  · rw [hwb] at hf
    simp only at hf
    split at hf
    · rcases hwb2 : s.manualCompaction.writeBlocksFromDataBuf with e' | p2
      · rw [hwb2] at hf; simp at hf
      · obtain ⟨s1, recs⟩ := p2
        rw [hwb2] at hf
        simp only [Except.ok.injEq] at hf
        subst hf
        have hres := flushCore s.manualCompaction s1 recs hinv hwb2
        exact ⟨hres.1, fun l b hrb => hres.2 l b hrb⟩
    · simp at hf
  · obtain ⟨s1, recs⟩ := p
    rw [hwb] at hf
    simp only [Except.ok.injEq] at hf
    subst hf
    exact flushCore s s1 recs hinv hwb

theorem write_one (s : State) (l : Nat) (b : Block) (s' : State)
    (hinv : DiskInv s) (hw : s.write l [b] = .ok s') :
    DiskInv s' ∧ s'.readOneBlock l = .ok b := by
  have hinv1 : DiskInv { s with data_buf := (s.data_buf.put l b).2 } := by
    unfold DiskInv at hinv ⊢
    obtain ⟨h1, h2, h3, h4, h5, h6⟩ := hinv
    exact ⟨h1, h2, h3, h4, h5, DataBuf.put_keys_nodup h6⟩
  have hgr1 : ({ s with data_buf := (s.data_buf.put l b).2 } :
      State).readOneBlock l = .ok b := by
    simp only [State.readOneBlock, DataBuf.get_put_self]
  simp only [State.write] at hw
  split at hw
  · rcases hfl : ({ s with data_buf := (s.data_buf.put l b).2 } :
        State).flushDataBuf with e | s2
    · rw [hfl] at hw; simp at hw
    · rw [hfl] at hw
      simp only [Except.ok.injEq] at hw
      subst hw
      obtain ⟨hinv2, htrans⟩ := flush_good _ _ hinv1 hfl
      exact ⟨hinv2, htrans l b hgr1⟩
  · simp only [Except.ok.injEq] at hw
    rw [← hw]
    exact ⟨hinv1, hgr1⟩

/-- C1: read-after-write round trip.  Under the state invariant `DiskInv`,
after a successful `write(lba, buf)` of one block, reading that LBA through
`read_one_block` returns exactly the written block — both while it still
sits in the data buffer and after any successful `flush_data_buf` has
allocated it an HBA, encrypted it with a fresh per-block key, written it to
the user-data disk, and reinserted it through the forward index — and the
invariant is maintained. -/
theorem C1_read_after_write (s : State) (l : Nat) (b : Block) (s' : State)
    (hinv : DiskInv s) (hw : s.write l [b] = .ok s') :
    (DiskInv s' ∧ s'.readOneBlock l = .ok b) ∧
    ∀ s'', s'.flushDataBuf = .ok s'' →
      DiskInv s'' ∧ s''.readOneBlock l = .ok b := by
  obtain ⟨h1, h2⟩ := write_one s l b s' hinv hw
  refine ⟨⟨h1, h2⟩, ?_⟩
  intro s'' hf
  obtain ⟨h3, h4⟩ := flush_good s' s'' h1 hf
  exact ⟨h3, h4 l b h2⟩

/-- C1 (witness): on a fresh four-block disk, write block `[7]` to LBA 0,
read it back from the buffer, then flush and read it back through the
forward index and decryption. -/
theorem C1_read_after_write_witness :
    DiskInv c1S0 ∧ State.write c1S0 0 [[7]] = .ok c1S1 ∧
    (DiskInv c1S1 ∧ c1S1.readOneBlock 0 = .ok [7]) ∧
    State.flushDataBuf c1S1 = .ok c1S2 ∧
    (DiskInv c1S2 ∧ c1S2.readOneBlock 0 = .ok [7]) :=
  ⟨by decide, by decide,
   (C1_read_after_write c1S0 0 [7] c1S1 (by decide) (by decide)).1,
   by decide,
   (C1_read_after_write c1S0 0 [7] c1S1 (by decide) (by decide)).2 c1S2
     (by decide)⟩
